import Mathlib

/-!
# go-pssh: a verification development of `main.go`

`main.go` runs one command over ssh on many hosts at once and prints one block
per host.  This file embeds the program in Lean and proves properties of it.

Conventions of the embedding:

* a Go `string`, and a `[]byte` printed with `%s`, is a Lean `String`;
* a Go `error` value is `Option String`: `none` is `nil`, `some e` is an error
  whose `Error()` text is `e`;
* the package-level variables are the fields of `Globals`, passed explicitly;
* `log.Fatal` and `os.Exit` end the whole process: a function that can reach
  them returns `Except String _`, the text being the fatal message;
* what the operating system does (pipes, child process, files, clock) is an
  explicit argument of the function that consumes it;
* goroutines are a step function on a system state, one event per step.
-/

namespace GoPssh

/-! ## Library functions used by the program -/

/-- Go `unicode.IsSpace`: the Latin-1 spaces `\t \n \v \f \r`, space, U+0085,
U+00A0, and the code points of category Z with property Pattern_White_Space. -/
def isSpace (c : Char) : Bool :=
  let n := c.toNat
  (9 ≤ n && n ≤ 13) || n == 32 || n == 0x85 || n == 0xA0 || n == 0x1680 ||
  (0x2000 ≤ n && n ≤ 0x200A) || n == 0x2028 || n == 0x2029 || n == 0x202F ||
  n == 0x205F || n == 0x3000

/-- Scanner behind `strings.Fields`: `cur` is the field being read (empty when
between fields); a space closes a non-empty field, any other character extends
it, and the end of input closes a non-empty field. -/
def fieldsFrom : List Char → List Char → List String
  | [], cur => if cur.isEmpty then [] else [String.mk cur]
  | c :: cs, cur =>
    if isSpace c then
      if cur.isEmpty then fieldsFrom cs [] else String.mk cur :: fieldsFrom cs []
    else fieldsFrom cs (cur ++ [c])

/-- Go `strings.Fields`: the maximal runs of non-space characters, in order. -/
def Fields (s : String) : List String := fieldsFrom s.data []

/-- Go `fmt.Sprint(a, b)` on two string operands: no space is inserted between
operands when one of them is a string. -/
def Sprint (a b : String) : String := a ++ b

/-- Go `fmt.Println(a, b, c)`: operands separated by one space, then a newline. -/
def Println (a b c : String) : String := a ++ " " ++ b ++ " " ++ c ++ "\n"

/-- Text of the error `cmd.Wait` returns when the child exited with a non-zero
status: `(*exec.ExitError).Error()` is `"exit status "` and the decimal status. -/
def exitStatusText (status : Nat) : String := "exit status " ++ toString status

/-- Error value of `cmd.Wait` for a child that ran and exited with `status`:
`nil` for status 0, an `ExitError` otherwise. -/
def waitError (status : Nat) : Option String :=
  if status = 0 then none else some (exitStatusText status)

/-! ## Constants and package-level variables -/

/-- The five colour strings of the program. -/
structure Palette where
  reset : String
  red : String
  green : String
  cyan : String
  bold : String

/-- The constants `reset`, `red`, `green`, `cyan`, `bold` of `main.go`
(`\033` is the escape character, U+001B). -/
def ansi : Palette :=
  { reset := "\x1b[0m", red := "\x1b[31m", green := "\x1b[32m",
    cyan := "\x1b[36m", bold := "\x1b[1m" }

/-- The palette in which every colour escape sequence is removed. -/
def noColour : Palette :=
  { reset := "", red := "", green := "", cyan := "", bold := "" }

/-- The package-level variables set from the command line, and `hosts`. -/
structure Globals where
  hostFile : String
  hostString : String
  hosts : List String
  command : String
  user : String
  sshOptions : String

/-! ## `formatOutput` -/

/-- Body of `formatOutput` over a palette; `currentTime` is the value of
`time.Now().Format("15:04:05")`.  The result is the text handed to the single
`fmt.Println` call. -/
def formatOutputWith (p : Palette) (id : Int) (host : String) (err : Option String)
    (stdout stderr : String) (currentTime : String) : String :=
  let message : String :=
    match err with
    | some e =>
      p.red ++ "[" ++ p.bold ++ "FAILURE]" ++ p.reset ++ " " ++ host ++ " " ++ p.red ++ e ++ p.reset
    | none => p.green ++ "[" ++ p.bold ++ "SUCCESS]" ++ p.reset ++ " " ++ host
  let message : String :=
    if stdout.length ≠ 0 then
      Sprint message ("\n" ++ p.green ++ "Stdout:" ++ p.reset ++ " " ++ stdout)
    else message
  let message : String :=
    if stderr.length ≠ 0 then
      Sprint message ("\n" ++ p.red ++ "Stderr:" ++ p.reset ++ " " ++ stderr)
    else message
  let coloredId : String := p.cyan ++ "[" ++ toString id ++ "]" ++ p.reset
  Println coloredId currentTime message

/-- Go `formatOutput`: the block printed for one task. -/
def formatOutput (id : Int) (host : String) (err : Option String)
    (stdout stderr : String) (currentTime : String) : String :=
  formatOutputWith ansi id host err stdout stderr currentTime

/-- Reader of the decimal number in front of the closing bracket: `acc` is the
value of the digits read so far, `seen` whether a digit was read. -/
def readDecimal : List Char → Nat → Bool → Option Nat
  | [], _, _ => none
  | c :: cs, acc, seen =>
    if c = ']' then (if seen then some acc else none)
    else if c.isDigit then readDecimal cs (acc * 10 + (c.toNat - 48)) true
    else none

/-- The task id a printed block carries: the text must open with the colour
`cyan`, a bracket, decimal digits and the closing bracket, as `formatOutput`
prints it; any other text carries no id. -/
def blockId (text : String) : Option Nat :=
  match text.data with
  | '\x1b' :: '[' :: '3' :: '6' :: 'm' :: '[' :: rest => readDecimal rest 0 false
  | _ => none

/-! ## `combineSSHCommand` and `runSSHCommand` -/

/-- Go `combineSSHCommand`: the ssh arguments shared by all hosts. -/
def combineSSHCommand (g : Globals) : List String :=
  let sshArgs : List String := []
  let sshArgs : List String :=
    if g.user.length ≠ 0 then (sshArgs ++ ["-l"]) ++ [g.user] else sshArgs
  let sshArgs : List String :=
    if g.sshOptions.length ≠ 0 then
      (Fields g.sshOptions).foldl (fun acc option => (acc ++ ["-o"]) ++ [option]) sshArgs
    else sshArgs
  sshArgs ++ [g.command]

/-- An `exec.Cmd`: program name and the arguments after it. -/
structure Cmd where
  name : String
  args : List String
deriving DecidableEq, Repr

/-- Go `exec.Command(name, arg...)`. -/
def execCommand (name : String) (arg : List String) : Cmd :=
  { name := name, args := arg }

/-- Lines 66-69 of `runSSHCommand`: the host is put in front of the shared
arguments and the `ssh` command is created. -/
def sshCommand (host : String) (sshArgs : List String) : Cmd :=
  let sshArgs : List String := [host] ++ sshArgs
  execCommand "ssh" sshArgs

/-- What the operating system answers to one executor about its command, in
the order the executor asks. -/
structure ProcEnv where
  /-- the error of `cmd.StderrPipe()` -/
  stderrPipeErr : Option String
  /-- the error of `cmd.StdoutPipe()` -/
  stdoutPipeErr : Option String
  /-- the error of `cmd.Start()` -/
  startErr : Option String
  /-- the bytes `io.ReadAll(stdoutPipe)` returns (its error is discarded) -/
  stdout : String
  /-- the bytes `io.ReadAll(stderrPipe)` returns (its error is discarded) -/
  stderr : String
  /-- the error of `cmd.Wait()` -/
  waitErr : Option String
  /-- the clock reading `time.Now().Format("15:04:05")` -/
  now : String

/-- Go `runSSHCommand` up to and including `formatOutput`; `os` gives the
answers of the operating system for the command it is handed.
`Except.error msg` is `log.Fatal(msg)`, which ends the whole process;
`Except.ok block` is the block printed, after which `wg.Done()` follows. -/
def runSSHCommand (id : Int) (host : String) (sshArgs : List String) (os : Cmd → ProcEnv) :
    Except String String :=
  let cmd := sshCommand host sshArgs
  let env := os cmd
  match env.stderrPipeErr with
  | some e => Except.error e
  | none =>
    match env.stdoutPipeErr with
    | some e => Except.error e
    | none =>
      match env.startErr with
      | some e => Except.error e
      | none =>
        let stdout := env.stdout
        let stderr := env.stderr
        let err := env.waitErr
        Except.ok (formatOutput id host err stdout stderr env.now)

/-! ## Host list acquisition -/

/-- Go `parseHostsString`.  The body reads the package-level `hostString`, not
the parameter `hostsString`, and stores the fields in the package-level
`hosts`. -/
def parseHostsString (g : Globals) (_hostsString : String) :
    Except String (Globals × List String) :=
  let g : Globals := { g with hosts := Fields g.hostString }
  if g.hosts.length = 0 then Except.error "can't parse hosts string"
  else Except.ok (g, g.hosts)

/-- What the file system answers for one path: the error of `os.Open`, the
tokens `scanner.Scan`/`scanner.Text` yield (one per line of the file, in
order), and the error `scanner.Err()` reports once scanning has stopped. -/
structure FileRead where
  openErr : Option String
  lines : List String
  scanErr : Option String

/-- Go `parseHostFile`: every scanned line is appended to the package-level
`hosts`. -/
def parseHostFile (g : Globals) (hostFile : String) (fs : String → FileRead) :
    Except String (Globals × List String) :=
  let file := fs hostFile
  match file.openErr with
  | some e => Except.error e
  | none =>
    let g : Globals := file.lines.foldl (fun g line => { g with hosts := g.hosts ++ [line] }) g
    match file.scanErr with
    | some e => Except.error e
    | none =>
      if g.hosts.length = 0 then Except.error "hosts file in empty"
      else Except.ok (g, g.hosts)

/-- Go `parseCommandLineArguments` after `flag.Parse()`: `g` holds the values
the flags were parsed into; the two checks end the process with `os.Exit(1)`. -/
def parseCommandLineArguments (g : Globals) : Except String Globals :=
  if g.hostFile.length = 0 && g.hostString.length = 0 then
    Except.error "Please specify -h or -H option"
  else if g.command.length = 0 then
    Except.error "Please specify command to execute"
  else Except.ok g

/-! ## The dispatch loop of `main` -/

/-- One `go runSSHCommand(i, host, sshArgs)` statement: the arguments it was
evaluated with. -/
structure Launch where
  id : Nat
  host : String
  sshArgs : List String
deriving DecidableEq, Repr

/-- State of the main goroutine inside the loop: the `WaitGroup` counter as
far as main has raised it, and the launches made so far, oldest first. -/
structure DispatchState where
  counter : Int
  launched : List Launch
deriving DecidableEq, Repr

/-- The loop `for i, host := range hosts { wg.Add(1); go runSSHCommand(i, host,
sshArgs) }`, started at index `i` on the hosts that remain. -/
def dispatchFrom (sshArgs : List String) : Nat → List String → DispatchState → DispatchState
  | _, [], st => st
  | i, host :: rest, st =>
    let st : DispatchState := { st with counter := st.counter + 1 }
    let st : DispatchState := { st with launched := st.launched ++ [⟨i, host, sshArgs⟩] }
    dispatchFrom sshArgs (i + 1) rest st

/-- The whole loop, from index 0 with a fresh `WaitGroup`. -/
def dispatch (hosts : List String) (sshArgs : List String) : DispatchState :=
  dispatchFrom sshArgs 0 hosts { counter := 0, launched := [] }

/-- Go `main` up to the call of `wg.Wait()`, for the goroutine of main alone:
`flags` are the parsed flag values, `hosts` starts as `nil`. -/
def main (flags : Globals) (fs : String → FileRead) : Except String DispatchState :=
  let g : Globals := { flags with hosts := [] }
  match parseCommandLineArguments g with
  | Except.error e => Except.error e
  | Except.ok g =>
    let parsed :=
      if g.hostString.length = 0 then parseHostFile g g.hostFile fs
      else parseHostsString g g.hostString
    match parsed with
    | Except.error e => Except.error e
    | Except.ok (g, hosts) =>
      let g : Globals := { g with hosts := hosts }
      let sshArgs := combineSSHCommand g
      Except.ok (dispatch g.hosts sshArgs)

/-- The executors a run of main launches: none when main ends before the loop. -/
def launchesOf : Except String DispatchState → List Launch
  | Except.error _ => []
  | Except.ok st => st.launched

/-! ## The concurrent system: main and its executors -/

/-- Where an executor goroutine stands: `running` before its block is printed,
`blocked` when it waits for ever inside `io.ReadAll` or `cmd.Wait` (a child
that never ends, or a full pipe nobody empties), `printed` between
`formatOutput` and `wg.Done()`, `finished` after `wg.Done()`. -/
inductive TaskPc where
  | running
  | blocked
  | printed
  | finished
deriving DecidableEq, Repr

/-- A launched executor. -/
structure Task where
  launch : Launch
  pc : TaskPc
deriving DecidableEq, Repr

/-- State of the process: the executors launched so far (in launch order),
whether main stands between `wg.Add(1)` and the `go` statement, the
`WaitGroup` counter, standard output as the texts printed so far (one per
`fmt.Println` call, in order), whether `wg.Wait()` has returned, and whether
the process was ended by `log.Fatal`. -/
structure Sys where
  tasks : List Task
  addPending : Bool
  counter : Int
  sink : List String
  waitReturned : Bool
  exited : Bool
deriving DecidableEq, Repr

/-- The state when main enters the loop. -/
def Sys.init : Sys :=
  { tasks := [], addPending := false, counter := 0, sink := [],
    waitReturned := false, exited := false }

/-- One atomic step of some goroutine. -/
inductive Ev where
  /-- main: `wg.Add(1)` -/
  | add
  /-- main: `go runSSHCommand(i, host, sshArgs)` -/
  | go
  /-- executor `k`: `runSSHCommand` up to the end of `formatOutput`, against
  the answers `os` of the operating system -/
  | exec (k : Nat) (os : Cmd → ProcEnv)
  /-- executor `k`: its reads or its wait never return -/
  | block (k : Nat)
  /-- executor `k`: `wg.Done()` -/
  | done (k : Nat)
  /-- main: `wg.Wait()` returns -/
  | waitReturn

/-- The step function: `none` when the event is not enabled.  Nothing runs
after `log.Fatal` or after main has left `wg.Wait()`. -/
def step (hosts : List String) (sshArgs : List String) (s : Sys) : Ev → Option Sys
  | Ev.add =>
    if s.exited || s.waitReturned || s.addPending then none
    else if s.tasks.length < hosts.length then
      some { s with addPending := true, counter := s.counter + 1 }
    else none
  | Ev.go =>
    if s.exited || s.waitReturned || !s.addPending then none
    else
      match hosts[s.tasks.length]? with
      | some host =>
        some { s with addPending := false,
                      tasks := s.tasks ++ [⟨⟨s.tasks.length, host, sshArgs⟩, TaskPc.running⟩] }
      | none => none
  | Ev.exec k os =>
    if s.exited || s.waitReturned then none
    else
      match s.tasks[k]? with
      | some t =>
        if t.pc = TaskPc.running then
          match runSSHCommand t.launch.id t.launch.host t.launch.sshArgs os with
          | Except.error _ => some { s with exited := true }
          | Except.ok block =>
            some { s with sink := s.sink ++ [block],
                          tasks := s.tasks.set k { t with pc := TaskPc.printed } }
        else none
      | none => none
  | Ev.block k =>
    if s.exited || s.waitReturned then none
    else
      match s.tasks[k]? with
      | some t =>
        if t.pc = TaskPc.running then
          some { s with tasks := s.tasks.set k { t with pc := TaskPc.blocked } }
        else none
      | none => none
  | Ev.done k =>
    if s.exited || s.waitReturned then none
    else
      match s.tasks[k]? with
      | some t =>
        if t.pc = TaskPc.printed then
          some { s with counter := s.counter - 1,
                        tasks := s.tasks.set k { t with pc := TaskPc.finished } }
        else none
      | none => none
  | Ev.waitReturn =>
    if s.exited || s.waitReturned || s.addPending then none
    else if s.tasks.length = hosts.length ∧ s.counter = 0 then
      some { s with waitReturned := true }
    else none

/-- Run a schedule: the events are taken one after the other; `none` when
one of them is not enabled. -/
def run (hosts : List String) (sshArgs : List String) : Sys → List Ev → Option Sys
  | s, [] => some s
  | s, e :: es =>
    match step hosts sshArgs s e with
    | some s1 => run hosts sshArgs s1 es
    | none => none

/-- Number of launched executors that have not called `wg.Done()` yet. -/
def pendingTasks (tasks : List Task) : Nat :=
  tasks.countP (fun t => t.pc ≠ TaskPc.finished)

/-- Number of hosts for which `wg.Add(1)` has run and `wg.Done()` has not. -/
def Sys.pending (s : Sys) : Nat :=
  pendingTasks s.tasks + (if s.addPending then 1 else 0)

/-- The task ids read off the texts on standard output, in the order written. -/
def Sys.sinkIds (s : Sys) : List Nat := s.sink.filterMap blockId

/-! ## Draining the output of the child (lines 84-95 of `runSSHCommand`) -/

/-- The two output streams of the child process. -/
inductive Stream where
  | stdout
  | stderr
deriving DecidableEq, Repr

/-- One action of the processes that hold the write ends of the two pipes
(the child and whatever it has started): a byte is written to a stream, the
last holder of the write end of a stream closes it, or the child itself
exits.  A child that is the only holder closes both streams when it exits; a
script that stops before `exit` or before a `close` is a child, or a holder,
that stays for ever. -/
inductive Action where
  | write (st : Stream) (b : UInt8)
  | close (st : Stream)
  | exit
deriving DecidableEq, Repr

/-- Where the executor stands after `cmd.Start()`: inside
`io.ReadAll(stdoutPipe)`, inside `io.ReadAll(stderrPipe)`, inside
`cmd.Wait()`, or past it. -/
inductive ReaderPc where
  | readStdout
  | readStderr
  | waiting
  | finished
deriving DecidableEq, Repr

/-- The executor, the writers and the two pipes between them: the actions the
writers still have to take, whether the child has exited, whether the write
end of each pipe is still held open, the bytes held in each pipe, the
position of the executor, and the bytes the two `io.ReadAll` calls have
collected. -/
structure Drain where
  script : List Action
  childExited : Bool
  outOpen : Bool
  errOpen : Bool
  outPipe : List UInt8
  errPipe : List UInt8
  pc : ReaderPc
  stdout : List UInt8
  stderr : List UInt8
deriving DecidableEq, Repr

/-- The state right after `cmd.Start()` for writers that will take the
actions of `script`, in that order. -/
def Drain.init (script : List Action) : Drain :=
  { script := script, childExited := false, outOpen := true, errOpen := true,
    outPipe := [], errPipe := [], pc := ReaderPc.readStdout, stdout := [], stderr := [] }

/-- One atomic step of the writers or of the executor. -/
inductive DrainEv where
  /-- the writers take the next action of their script; a write waits while
  the pipe takes no more -/
  | child
  /-- a read of the current `io.ReadAll` returns the first `n` bytes of its pipe -/
  | read (n : Nat)
  /-- a read of the current `io.ReadAll` returns end of file: the pipe is
  empty and nobody holds its write end -/
  | eof
  /-- `cmd.Wait()` returns: the child has exited -/
  | waitReturn

/-- The step function: `none` when the event is not enabled (the goroutine or
the writer waits there).  `room st pipe` is the decision of the operating
system whether the pipe of stream `st`, holding `pipe`, takes one more byte;
a write to a stream whose write end is closed fails and the writer goes on. -/
def Drain.step (room : Stream → List UInt8 → Bool) (d : Drain) : DrainEv → Option Drain
  | DrainEv.child =>
    match d.script with
    | [] => none
    | Action.write Stream.stdout b :: rest =>
      if d.outOpen then
        if room Stream.stdout d.outPipe then
          some { d with script := rest, outPipe := d.outPipe ++ [b] }
        else none
      else some { d with script := rest }
    | Action.write Stream.stderr b :: rest =>
      if d.errOpen then
        if room Stream.stderr d.errPipe then
          some { d with script := rest, errPipe := d.errPipe ++ [b] }
        else none
      else some { d with script := rest }
    | Action.close Stream.stdout :: rest => some { d with script := rest, outOpen := false }
    | Action.close Stream.stderr :: rest => some { d with script := rest, errOpen := false }
    | Action.exit :: rest => some { d with script := rest, childExited := true }
  | DrainEv.read n =>
    match d.pc with
    | ReaderPc.readStdout =>
      if 0 < n ∧ n ≤ d.outPipe.length then
        some { d with stdout := d.stdout ++ d.outPipe.take n, outPipe := d.outPipe.drop n }
      else none
    | ReaderPc.readStderr =>
      if 0 < n ∧ n ≤ d.errPipe.length then
        some { d with stderr := d.stderr ++ d.errPipe.take n, errPipe := d.errPipe.drop n }
      else none
    | _ => none
  | DrainEv.eof =>
    match d.pc with
    | ReaderPc.readStdout =>
      if d.outPipe.isEmpty ∧ d.outOpen = false then some { d with pc := ReaderPc.readStderr }
      else none
    | ReaderPc.readStderr =>
      if d.errPipe.isEmpty ∧ d.errOpen = false then some { d with pc := ReaderPc.waiting }
      else none
    | _ => none
  | DrainEv.waitReturn =>
    match d.pc with
    | ReaderPc.waiting =>
      if d.childExited then some { d with pc := ReaderPc.finished } else none
    | _ => none

/-- Run a schedule of the writers and the executor. -/
def Drain.run (room : Stream → List UInt8 → Bool) : Drain → List DrainEv → Option Drain
  | d, [] => some d
  | d, e :: es =>
    match Drain.step room d e with
    | some d1 => Drain.run room d1 es
    | none => none

/-- The bytes a script writes to one stream, in order: its writes to that
stream up to the close of the stream. -/
def written (st : Stream) : List Action → List UInt8
  | [] => []
  | Action.write st1 b :: rest => if st1 = st then b :: written st rest else written st rest
  | Action.close st1 :: rest => if st1 = st then [] else written st rest
  | Action.exit :: rest => written st rest

/-- A state is stuck when no event is enabled in it. -/
def Drain.stuck (room : Stream → List UInt8 → Bool) (d : Drain) : Prop :=
  ∀ ev : DrainEv, Drain.step room d ev = none

/-- A pipe that takes a byte exactly while it holds fewer than `cap` bytes. -/
def byteRoom (cap : Nat) : Stream → List UInt8 → Bool :=
  fun _ pipe => decide (pipe.length < cap)

/-- No pipe ever holds more than `cap` bytes: a pipe that holds `cap` bytes
or more takes no further byte. -/
def Bounded (room : Stream → List UInt8 → Bool) (cap : Nat) : Prop :=
  ∀ (st : Stream) (pipe : List UInt8), cap ≤ pipe.length → room st pipe = false

/-! ## Reading a printed block -/

/-- The start of every block: the coloured task id and the time, each followed
by one space. -/
def blockHeader (id : Int) (currentTime : String) : String :=
  ansi.cyan ++ "[" ++ toString id ++ "]" ++ ansi.reset ++ " " ++ currentTime ++ " "

/-- The status label of a task that succeeded. -/
def successLabel : String := ansi.green ++ "[" ++ ansi.bold ++ "SUCCESS]" ++ ansi.reset

/-- The status label of a task that failed. -/
def failureLabel : String := ansi.red ++ "[" ++ ansi.bold ++ "FAILURE]" ++ ansi.reset

/-- The optional output sections of a block: standard output first. -/
def outputSections (stdout stderr : String) : String :=
  (if stdout ≠ "" then "\n" ++ ansi.green ++ "Stdout:" ++ ansi.reset ++ " " ++ stdout else "") ++
  (if stderr ≠ "" then "\n" ++ ansi.red ++ "Stderr:" ++ ansi.reset ++ " " ++ stderr else "")

/-- The five colour escape sequences of the program. -/
def colourCodes : List String := [ansi.reset, ansi.red, ansi.green, ansi.cyan, ansi.bold]

/-- Removal of colour: `Uncoloured v u` holds when `u` is obtained from `v` by
deleting occurrences of the colour escape sequences and keeping all other text
in place. -/
inductive Uncoloured : String → String → Prop where
  | done : Uncoloured "" ""
  | text (a : String) {v u : String} : Uncoloured v u → Uncoloured (a ++ v) (a ++ u)
  | colour (c : String) {v u : String} :
      c ∈ colourCodes → Uncoloured v u → Uncoloured (c ++ v) u

/-- The block as the specification words it, without colour: id in brackets,
time, status label, host, the error text after a failure, then the optional
`Stdout: ` and `Stderr: ` sections each on a new line, then one newline. -/
def plainBlock (id : Int) (host : String) (err : Option String)
    (stdout stderr : String) (currentTime : String) : String :=
  "[" ++ toString id ++ "] " ++ currentTime ++ " " ++
    (match err with
     | none => "[SUCCESS] " ++ host
     | some e => "[FAILURE] " ++ host ++ " " ++ e) ++
    (if stdout ≠ "" then "\nStdout: " ++ stdout else "") ++
    (if stderr ≠ "" then "\nStderr: " ++ stderr else "") ++ "\n"

/-- A piece of a block: a colour taken from the palette, or literal text. -/
inductive Piece where
  | colour (pick : Palette → String)
  | text (s : String)

/-- The text of a list of pieces under a palette. -/
def render (p : Palette) : List Piece → String
  | [] => ""
  | Piece.colour pick :: ps => pick p ++ render p ps
  | Piece.text s :: ps => s ++ render p ps

/-- A palette field: one of the colour escape sequences in `ansi`, empty in
`noColour`. -/
def ColourPick (pick : Palette → String) : Prop :=
  pick ansi ∈ colourCodes ∧ pick noColour = ""

/-- Every colour piece of the list is a palette field. -/
def WellColoured : List Piece → Prop
  | [] => True
  | Piece.colour pick :: ps => ColourPick pick ∧ WellColoured ps
  | Piece.text _ :: ps => WellColoured ps

/-- The pieces of the first line of a block, in print order. -/
def headPieces (id : Int) (host : String) (err : Option String) (t : String) : List Piece :=
  [Piece.colour Palette.cyan, Piece.text "[", Piece.text (toString id), Piece.text "]",
   Piece.colour Palette.reset, Piece.text " ", Piece.text t, Piece.text " "] ++
  (match err with
   | some e =>
     [Piece.colour Palette.red, Piece.text "[", Piece.colour Palette.bold, Piece.text "FAILURE]",
      Piece.colour Palette.reset, Piece.text " ", Piece.text host, Piece.text " ",
      Piece.colour Palette.red, Piece.text e, Piece.colour Palette.reset]
   | none =>
     [Piece.colour Palette.green, Piece.text "[", Piece.colour Palette.bold, Piece.text "SUCCESS]",
      Piece.colour Palette.reset, Piece.text " ", Piece.text host])

/-- The pieces of a whole block, in print order. -/
def blockPieces (id : Int) (host : String) (err : Option String)
    (stdout stderr : String) (t : String) : List Piece :=
  headPieces id host err t ++
  (if stdout ≠ "" then
     [Piece.text "\n", Piece.colour Palette.green, Piece.text "Stdout:",
      Piece.colour Palette.reset, Piece.text " ", Piece.text stdout]
   else []) ++
  (if stderr ≠ "" then
     [Piece.text "\n", Piece.colour Palette.red, Piece.text "Stderr:",
      Piece.colour Palette.reset, Piece.text " ", Piece.text stderr]
   else []) ++ [Piece.text "\n"]

/-- What holds in every state the system reaches from `Sys.init`. -/
structure Inv (hosts : List String) (sshArgs : List String) (s : Sys) : Prop where
  /-- executor `k` was launched as `runSSHCommand(k, hosts[k], sshArgs)` -/
  launchOk : ∀ (k : Nat) (t : Task), s.tasks[k]? = some t →
    t.launch.id = k ∧ hosts[k]? = some t.launch.host ∧ t.launch.sshArgs = sshArgs
  /-- main has not run past the host list -/
  bound : s.tasks.length + (if s.addPending then 1 else 0) ≤ hosts.length
  /-- the `WaitGroup` counter is the number of hosts added and not yet done -/
  counterEq : s.counter = (s.pending : Int)
  /-- no task id occurs twice on standard output -/
  sinkNodup : s.sinkIds.Nodup
  /-- the ids on standard output are those of the executors past `formatOutput` -/
  sinkMem : ∀ k : Nat, k ∈ s.sinkIds ↔
    ∃ t, s.tasks[k]? = some t ∧ (t.pc = TaskPc.printed ∨ t.pc = TaskPc.finished)
  /-- every text on standard output is the block `formatOutput` builds for a
  task id, the host at that position and answers of the operating system, as
  `runSSHCommand` printed it, and carries that id -/
  formatted : ∀ txt ∈ s.sink, ∃ (k : Nat) (host : String) (os : Cmd → ProcEnv),
    hosts[k]? = some host
      ∧ runSSHCommand k host sshArgs os = Except.ok txt
      ∧ txt = formatOutput k host (os (sshCommand host sshArgs)).waitErr
          (os (sshCommand host sshArgs)).stdout (os (sshCommand host sshArgs)).stderr
          (os (sshCommand host sshArgs)).now
      ∧ blockId txt = some k
  /-- `wg.Wait()` returns only after the loop, with the counter at zero -/
  waited : s.waitReturned = true → s.tasks.length = hosts.length ∧ s.counter = 0

/-- An operating system under which every child starts, writes `out` to its
standard output and exits with `status` at time `now`. -/
def osExits (out : String) (status : Nat) (now : String) : Cmd → ProcEnv :=
  fun _ =>
    { stderrPipeErr := none, stdoutPipeErr := none, startErr := none,
      stdout := out, stderr := "", waitErr := waitError status, now := now }

/-- An operating system under which `cmd.Start()` fails with `e`. -/
def osStartFails (e : String) : Cmd → ProcEnv :=
  fun _ =>
    { stderrPipeErr := none, stdoutPipeErr := none, startErr := some e,
      stdout := "", stderr := "", waitErr := none, now := "" }

/-- What holds in every state reached from `Drain.init script0`: the bytes
written to each stream are those collected, those still in the pipe and those
the script will still write while the stream is open; standard error is
untouched while standard output is read; the executor leaves a stream only
at its end of file. -/
structure DrainInv (script0 : List Action) (d : Drain) : Prop where
  outSplit : written Stream.stdout script0 =
    d.stdout ++ d.outPipe ++ (if d.outOpen then written Stream.stdout d.script else [])
  errSplit : written Stream.stderr script0 =
    d.stderr ++ d.errPipe ++ (if d.errOpen then written Stream.stderr d.script else [])
  errUnread : d.pc = ReaderPc.readStdout → d.stderr = []
  pastStdout : d.pc ≠ ReaderPc.readStdout → d.outOpen = false ∧ d.outPipe = []
  pastStderr : d.pc = ReaderPc.waiting ∨ d.pc = ReaderPc.finished →
    d.errOpen = false ∧ d.errPipe = []

/-- Steps an executor still has to take: print its block, call `wg.Done()`. -/
def TaskPc.stepsLeft : TaskPc → Nat
  | TaskPc.running => 2
  | TaskPc.blocked => 0
  | TaskPc.printed => 1
  | TaskPc.finished => 0

/-- Bound on the number of steps the system can still take when no launch
fails: four per host not yet launched, the steps left to the launched
executors, and the return of `wg.Wait()`. -/
def Sys.measure (hosts : List String) (s : Sys) : Nat :=
  4 * (hosts.length - s.tasks.length) + (if s.addPending then 0 else 1) +
    (s.tasks.map (fun t => t.pc.stepsLeft)).sum + (if s.waitReturned then 0 else 1)

/-- An operating system under which no pipe and no launch fails; its answers
are those of reads and of a wait that return. -/
def NoLaunchError (os : Cmd → ProcEnv) : Prop :=
  ∀ c : Cmd, (os c).stderrPipeErr = none ∧ (os c).stdoutPipeErr = none ∧ (os c).startErr = none

/-! ## Lemmas on strings and `strings.Fields` -/

theorem length_ne_zero_iff (s : String) : s.length ≠ 0 ↔ s ≠ "" := by
  constructor
  · intro h hs
    apply h
    rw [hs]
    rfl
  · intro h hl
    apply h
    apply String.ext
    have h0 : s.data.length = 0 := hl
    exact List.length_eq_zero.mp h0

theorem fieldsFrom_eq_nil_iff (cs cur : List Char) :
    fieldsFrom cs cur = [] ↔ cur = [] ∧ ∀ c ∈ cs, isSpace c = true := by
  induction cs generalizing cur with
  | nil =>
    cases cur <;> simp [fieldsFrom]
  | cons c cs ih =>
    by_cases hc : isSpace c = true
    · cases cur with
      | nil => simp [fieldsFrom, hc, ih]
      | cons a as => simp [fieldsFrom, hc]
    · simp [fieldsFrom, hc, ih]

/-- `strings.Fields` yields no field exactly on the strings that consist of
white space only (the empty string among them). -/
theorem Fields_eq_nil_iff (s : String) :
    Fields s = [] ↔ ∀ c ∈ s.data, isSpace c = true := by
  simp [Fields, fieldsFrom_eq_nil_iff]

theorem Fields_empty : Fields "" = [] := by decide

theorem fieldsFrom_fields (cs cur : List Char) (hcur : ∀ c ∈ cur, isSpace c = false) :
    ∀ f ∈ fieldsFrom cs cur, f ≠ "" ∧ ∀ c ∈ f.data, isSpace c = false := by
  induction cs generalizing cur with
  | nil =>
    intro f hf
    cases cur with
    | nil => simp [fieldsFrom] at hf
    | cons a as =>
      simp only [fieldsFrom, List.isEmpty_cons, Bool.false_eq_true, if_false,
        List.mem_singleton] at hf
      subst hf
      exact ⟨fun h => by simp [String.ext_iff] at h, hcur⟩
  | cons c cs ih =>
    intro f hf
    by_cases hc : isSpace c = true
    · cases cur with
      | nil =>
        simp only [fieldsFrom, hc, if_true, List.isEmpty_nil] at hf
        exact ih [] (by simp) f hf
      | cons a as =>
        simp only [fieldsFrom, hc, if_true, List.isEmpty_cons, Bool.false_eq_true, if_false,
          List.mem_cons] at hf
        rcases hf with hf | hf
        · subst hf
          exact ⟨fun h => by simp [String.ext_iff] at h, hcur⟩
        · exact ih [] (by simp) f hf
    · simp only [fieldsFrom, hc, Bool.false_eq_true, if_false] at hf
      refine ih (cur ++ [c]) ?_ f hf
      intro x hx
      simp only [List.mem_append, List.mem_singleton] at hx
      rcases hx with hx | hx
      · exact hcur x hx
      · subst hx
        simpa using hc

theorem fieldsFrom_join (cs cur : List Char) (hcur : ∀ c ∈ cur, isSpace c = false) :
    (fieldsFrom cs cur).flatMap String.data = cur ++ cs.filter (fun c => !isSpace c) := by
  induction cs generalizing cur with
  | nil =>
    cases cur <;> simp [fieldsFrom]
  | cons c cs ih =>
    by_cases hc : isSpace c = true
    · cases cur with
      | nil => simp [fieldsFrom, hc, ih]
      | cons a as => simp [fieldsFrom, hc, ih]
    · have hc2 : isSpace c = false := by simpa using hc
      simp only [fieldsFrom, hc2, Bool.false_eq_true, if_false]
      rw [ih (cur ++ [c])]
      · simp [hc2]
      · intro x hx
        simp only [List.mem_append, List.mem_singleton] at hx
        rcases hx with hx | hx
        · exact hcur x hx
        · subst hx
          exact hc2

/-- Every field `strings.Fields` returns is non-empty and free of white space,
and the fields joined are the input with its white space removed. -/
theorem Fields_spec (s : String) :
    (∀ f ∈ Fields s, f ≠ "" ∧ ∀ c ∈ f.data, isSpace c = false)
      ∧ (Fields s).flatMap String.data = s.data.filter (fun c => !isSpace c) := by
  refine ⟨fieldsFrom_fields s.data [] (by simp), ?_⟩
  have h := fieldsFrom_join s.data [] (by simp)
  simpa [Fields] using h

/-! ## The ssh argument vector -/

theorem foldl_option_pairs (fields acc : List String) :
    fields.foldl (fun acc option => (acc ++ ["-o"]) ++ [option]) acc =
      acc ++ fields.flatMap (fun o => ["-o", o]) := by
  induction fields generalizing acc with
  | nil => simp
  | cons f fs ih =>
    rw [List.foldl_cons, ih, List.flatMap_cons]
    simp

theorem length_flatMap_option_pairs (l : List String) :
    (l.flatMap (fun o => ["-o", o])).length = 2 * l.length := by
  induction l with
  | nil => simp
  | cons a l ih => simp [List.flatMap_cons, ih]; omega

theorem combineSSHCommand_eq (g : Globals) :
    combineSSHCommand g =
      (if g.user ≠ "" then ["-l", g.user] else []) ++
        (Fields g.sshOptions).flatMap (fun o => ["-o", o]) ++ [g.command] := by
  unfold combineSSHCommand
  simp only [foldl_option_pairs]
  by_cases hu : g.user = "" <;> by_cases ho : g.sshOptions = ""
  · simp [hu, ho, Fields_empty]
  · have ho2 : g.sshOptions.length ≠ 0 := (length_ne_zero_iff _).2 ho
    simp [hu, ho2]
  · have hu2 : g.user.length ≠ 0 := (length_ne_zero_iff _).2 hu
    simp [hu, hu2, ho, Fields_empty]
  · have ho2 : g.sshOptions.length ≠ 0 := (length_ne_zero_iff _).2 ho
    have hu2 : g.user.length ≠ 0 := (length_ne_zero_iff _).2 hu
    simp [hu, hu2, ho2]

/-- C1: the arguments `runSSHCommand` creates the ssh command with, given the
result of `combineSSHCommand`, are the host, then `-l user` when a user is
set, then `-o o` for every field `o` of the options string in order, then the
command; the command is the last argument, one element whatever it contains;
and this command is the one `runSSHCommand` puts to the operating system. -/
theorem sshCommand_combineSSHCommand_args (g : Globals) (host : String) :
    (sshCommand host (combineSSHCommand g)).args =
        [host] ++ (if g.user ≠ "" then ["-l", g.user] else []) ++
          (Fields g.sshOptions).flatMap (fun o => ["-o", o]) ++ [g.command]
      ∧ (sshCommand host (combineSSHCommand g)).name = "ssh"
      ∧ (sshCommand host (combineSSHCommand g)).args.getLast? = some g.command
      ∧ (sshCommand host (combineSSHCommand g)).args.length =
          1 + (if g.user ≠ "" then 2 else 0) + 2 * (Fields g.sshOptions).length + 1
      ∧ (∀ (id : Int) (os : Cmd → ProcEnv),
          runSSHCommand id host (combineSSHCommand g) os =
            runSSHCommand id host (combineSSHCommand g)
              (fun _ => os
                { name := "ssh",
                  args := [host] ++ (if g.user ≠ "" then ["-l", g.user] else []) ++
                    (Fields g.sshOptions).flatMap (fun o => ["-o", o]) ++ [g.command] })) := by
  have hargs : (sshCommand host (combineSSHCommand g)).args =
      [host] ++ (if g.user ≠ "" then ["-l", g.user] else []) ++
        (Fields g.sshOptions).flatMap (fun o => ["-o", o]) ++ [g.command] := by
    simp [sshCommand, execCommand, combineSSHCommand_eq]
  have hcmd : sshCommand host (combineSSHCommand g) =
      { name := "ssh",
        args := [host] ++ (if g.user ≠ "" then ["-l", g.user] else []) ++
          (Fields g.sshOptions).flatMap (fun o => ["-o", o]) ++ [g.command] } := by
    rw [← hargs]
    rfl
  refine ⟨hargs, rfl, ?_, ?_, ?_⟩
  rotate_left 2
  · intro id os
    simp only [runSSHCommand, hcmd]
  · have h : (sshCommand host (combineSSHCommand g)).args =
        ([host] ++ (if g.user ≠ "" then ["-l", g.user] else []) ++
          (Fields g.sshOptions).flatMap (fun o => ["-o", o])) ++ [g.command] := by
      simp [sshCommand, execCommand, combineSSHCommand_eq]
    rw [h, List.getLast?_concat]
  · simp only [sshCommand, execCommand, combineSSHCommand_eq, List.length_append,
      length_flatMap_option_pairs]
    by_cases hu : g.user = "" <;> simp [hu] <;> omega

/-! ## The printed block -/

theorem formatOutput_none (id : Int) (host stdout stderr t : String) :
    formatOutput id host none stdout stderr t =
      blockHeader id t ++ successLabel ++ " " ++ host ++ outputSections stdout stderr ++ "\n" := by
  unfold formatOutput formatOutputWith blockHeader successLabel outputSections Println Sprint
  by_cases ho : stdout = "" <;> by_cases he : stderr = ""
  all_goals simp [ho, he, length_ne_zero_iff, String.append_assoc]

theorem formatOutput_some (id : Int) (host e stdout stderr t : String) :
    formatOutput id host (some e) stdout stderr t =
      blockHeader id t ++ failureLabel ++ " " ++ host ++ " " ++ ansi.red ++ e ++ ansi.reset ++
        outputSections stdout stderr ++ "\n" := by
  unfold formatOutput formatOutputWith blockHeader failureLabel outputSections Println Sprint
  by_cases ho : stdout = "" <;> by_cases he : stderr = ""
  all_goals simp [ho, he, length_ne_zero_iff, String.append_assoc]

theorem append_left_cancel_string {a b c : String} (h : a ++ b = a ++ c) : b = c := by
  have h2 := congrArg String.data h
  simp only [String.data_append] at h2
  exact String.ext (List.append_cancel_left h2)

theorem labels_differ (x y : String) : failureLabel ++ x ≠ successLabel ++ y := by
  intro h
  have h2 := congrArg String.data h
  simp [failureLabel, successLabel, ansi, String.data_append] at h2

theorem formatOutput_success_iff (id : Int) (host : String) (err : Option String)
    (stdout stderr t : String) :
    (∃ rest, formatOutput id host err stdout stderr t = blockHeader id t ++ successLabel ++ rest)
      ↔ err = none := by
  constructor
  · rintro ⟨rest, h⟩
    cases err with
    | none => rfl
    | some e =>
      exfalso
      rw [formatOutput_some] at h
      simp only [String.append_assoc] at h
      exact labels_differ _ _ (append_left_cancel_string h)
  · rintro rfl
    exact ⟨" " ++ host ++ outputSections stdout stderr ++ "\n", by
      rw [formatOutput_none]; simp only [String.append_assoc]⟩

theorem formatOutput_failure_iff (id : Int) (host : String) (err : Option String)
    (stdout stderr t : String) :
    (∃ rest, formatOutput id host err stdout stderr t = blockHeader id t ++ failureLabel ++ rest)
      ↔ err ≠ none := by
  constructor
  · rintro ⟨rest, h⟩ rfl
    rw [formatOutput_none] at h
    simp only [String.append_assoc] at h
    exact labels_differ _ _ (append_left_cancel_string h).symm
  · intro hne
    cases err with
    | none => exact absurd rfl hne
    | some e =>
      exact ⟨" " ++ host ++ " " ++ ansi.red ++ e ++ ansi.reset ++
        outputSections stdout stderr ++ "\n", by
        rw [formatOutput_some]; simp only [String.append_assoc]⟩

/-- C4: the status of a block follows the exit of the remote command.  After
exit status 0 the label is SUCCESS and the host name is followed by the output
sections only; after a non-zero exit status `s` the label is FAILURE and the
host name is followed by `exit status s` in decimal; for every error value the
label is SUCCESS exactly when the error is nil, FAILURE exactly when it is not;
and `runSSHCommand` prints the block of the error that `cmd.Wait` returned. -/
theorem formatOutput_status (id : Int) (host stdout stderr t : String) :
    formatOutput id host (waitError 0) stdout stderr t =
        blockHeader id t ++ successLabel ++ " " ++ host ++ outputSections stdout stderr ++ "\n"
      ∧ (∀ s : Nat, s ≠ 0 →
          formatOutput id host (waitError s) stdout stderr t =
            blockHeader id t ++ failureLabel ++ " " ++ host ++ " " ++ ansi.red ++
              ("exit status " ++ toString s) ++ ansi.reset ++
              outputSections stdout stderr ++ "\n")
      ∧ (∀ err : Option String,
          ((∃ rest, formatOutput id host err stdout stderr t =
              blockHeader id t ++ successLabel ++ rest) ↔ err = none)
          ∧ ((∃ rest, formatOutput id host err stdout stderr t =
              blockHeader id t ++ failureLabel ++ rest) ↔ err ≠ none))
      ∧ (∀ (sshArgs : List String) (os : Cmd → ProcEnv) (env : ProcEnv),
          os (sshCommand host sshArgs) = env →
          env.stderrPipeErr = none → env.stdoutPipeErr = none → env.startErr = none →
          runSSHCommand id host sshArgs os =
            Except.ok (formatOutput id host env.waitErr env.stdout env.stderr env.now)) := by
  refine ⟨?_, ?_, ?_, ?_⟩
  · simp only [waitError, if_true]
    exact formatOutput_none id host stdout stderr t
  · intro s hs
    simp only [waitError, hs, if_false, exitStatusText]
    exact formatOutput_some id host _ stdout stderr t
  · intro err
    exact ⟨formatOutput_success_iff id host err stdout stderr t,
      formatOutput_failure_iff id host err stdout stderr t⟩
  · intro sshArgs os env henv h1 h2 h3
    simp [runSSHCommand, henv, h1, h2, h3]

/-- The status theorem at task 0 on host `c`, exit status 1, no output,
printed at 21:18:57. -/
theorem formatOutput_status_witness :
    formatOutput 0 "c" (waitError 1) "" "" "21:18:57" =
      "\x1b[36m[0]\x1b[0m 21:18:57 \x1b[31m[\x1b[1mFAILURE]\x1b[0m c \x1b[31mexit status 1\x1b[0m\n" := by
  have h := (formatOutput_status 0 "c" "" "" "21:18:57").2.1 1 (by decide)
  rw [h]
  decide

/-- The first example of the comment in `formatOutput`: task 1 succeeded on
`host.hostname.com` at 15:04:00 with no output. -/
theorem formatOutput_example_success :
    formatOutput 1 "host.hostname.com" none "" "" "15:04:00" =
        "\x1b[36m[1]\x1b[0m 15:04:00 \x1b[32m[\x1b[1mSUCCESS]\x1b[0m host.hostname.com\n"
      ∧ plainBlock 1 "host.hostname.com" none "" "" "15:04:00" =
        "[1] 15:04:00 [SUCCESS] host.hostname.com\n" := by
  constructor <;> decide

/-- The second example of the comment in `formatOutput`: task 0 failed with
exit status 127 at 21:18:57, with text on standard error. -/
theorem formatOutput_example_failure :
    plainBlock 0 "host.hostname.com" (waitError 127) "" "sh: x: not found\n" "21:18:57" =
      "[0] 21:18:57 [FAILURE] host.hostname.com exit status 127\nStderr: sh: x: not found\n\n" := by
  decide

theorem uncoloured_render (ps : List Piece) (h : WellColoured ps) :
    Uncoloured (render ansi ps) (render noColour ps) := by
  induction ps with
  | nil => exact Uncoloured.done
  | cons p ps ih =>
    cases p with
    | colour pick =>
      obtain ⟨⟨hin, hemp⟩, hrest⟩ := h
      simp only [render, hemp, String.empty_append]
      exact Uncoloured.colour _ hin (ih hrest)
    | text s =>
      simp only [render]
      exact Uncoloured.text s (ih h)

theorem formatOutputWith_eq_render (p : Palette) (id : Int) (host : String) (err : Option String)
    (stdout stderr t : String) :
    formatOutputWith p id host err stdout stderr t =
      render p (blockPieces id host err stdout stderr t) := by
  unfold formatOutputWith blockPieces headPieces Println Sprint
  cases err <;> by_cases ho : stdout = "" <;> by_cases he : stderr = ""
  all_goals simp [ho, he, length_ne_zero_iff, String.append_assoc, render]

theorem wellColoured_blockPieces (id : Int) (host : String) (err : Option String)
    (stdout stderr t : String) : WellColoured (blockPieces id host err stdout stderr t) := by
  have hc : ColourPick Palette.cyan := by simp [ColourPick, colourCodes, ansi, noColour]
  have hr : ColourPick Palette.reset := by simp [ColourPick, colourCodes, ansi, noColour]
  have hd : ColourPick Palette.red := by simp [ColourPick, colourCodes, ansi, noColour]
  have hg : ColourPick Palette.green := by simp [ColourPick, colourCodes, ansi, noColour]
  have hb : ColourPick Palette.bold := by simp [ColourPick, colourCodes, ansi, noColour]
  unfold blockPieces headPieces
  cases err <;> by_cases ho : stdout = "" <;> by_cases he : stderr = ""
  all_goals simp [ho, he, WellColoured, hc, hr, hd, hg, hb]

theorem formatOutputWith_noColour (id : Int) (host : String) (err : Option String)
    (stdout stderr t : String) :
    formatOutputWith noColour id host err stdout stderr t =
      plainBlock id host err stdout stderr t := by
  unfold formatOutputWith plainBlock Println Sprint noColour
  cases err <;> by_cases ho : stdout = "" <;> by_cases he : stderr = ""
  all_goals simp [ho, he, length_ne_zero_iff, String.append_assoc]

/-- C5: for every id, host, error, stdout, stderr and time string, the block
`formatOutput` prints becomes, once its colour escape sequences are removed,
exactly `[id] t [SUCCESS] host` or `[id] t [FAILURE] host error`, then a
newline and `Stdout: ` with the stdout bytes exactly when stdout is non-empty,
then a newline and `Stderr: ` with the stderr bytes exactly when stderr is
non-empty, then one newline; the same text is what the function prints when
its five colour constants are empty. -/
theorem formatOutput_uncoloured (id : Int) (host : String) (err : Option String)
    (stdout stderr t : String) :
    Uncoloured (formatOutput id host err stdout stderr t)
        (plainBlock id host err stdout stderr t)
      ∧ formatOutputWith noColour id host err stdout stderr t =
          plainBlock id host err stdout stderr t := by
  refine ⟨?_, formatOutputWith_noColour id host err stdout stderr t⟩
  rw [← formatOutputWith_noColour, formatOutput, formatOutputWith_eq_render,
    formatOutputWith_eq_render]
  exact uncoloured_render _ (wellColoured_blockPieces id host err stdout stderr t)

/-! ## The task id of a printed block -/

theorem digitChar_facts : ∀ m, m < 10 →
    (Nat.digitChar m).isDigit = true ∧ Nat.digitChar m ≠ ']' ∧ (Nat.digitChar m).toNat - 48 = m := by
  decide

theorem toDigitsCore_append (fuel n : Nat) (ds : List Char) :
    Nat.toDigitsCore 10 fuel n ds = Nat.toDigitsCore 10 fuel n [] ++ ds := by
  induction fuel generalizing n ds with
  | zero => simp [Nat.toDigitsCore]
  | succ fuel ih =>
    simp only [Nat.toDigitsCore]
    split
    · simp
    · rw [ih (n / 10) (Nat.digitChar (n % 10) :: ds), ih (n / 10) [Nat.digitChar (n % 10)]]
      simp

theorem toDigitsCore_digits (fuel n : Nat) :
    ∀ c ∈ Nat.toDigitsCore 10 fuel n [], c.isDigit = true ∧ c ≠ ']' := by
  induction fuel generalizing n with
  | zero => simp [Nat.toDigitsCore]
  | succ fuel ih =>
    have hd := digitChar_facts (n % 10) (Nat.mod_lt _ (by decide))
    simp only [Nat.toDigitsCore]
    split
    · intro c hc
      simp only [List.mem_singleton] at hc
      subst hc
      exact ⟨hd.1, hd.2.1⟩
    · rw [toDigitsCore_append]
      intro c hc
      simp only [List.mem_append, List.mem_singleton] at hc
      rcases hc with hc | hc
      · exact ih (n / 10) c hc
      · subst hc
        exact ⟨hd.1, hd.2.1⟩

theorem toDigitsCore_value (fuel n : Nat) (h : n < fuel) :
    (Nat.toDigitsCore 10 fuel n []).foldl (fun acc c => acc * 10 + (c.toNat - 48)) 0 = n := by
  induction fuel generalizing n with
  | zero => omega
  | succ fuel ih =>
    have hd := digitChar_facts (n % 10) (Nat.mod_lt _ (by decide))
    simp only [Nat.toDigitsCore]
    split
    · rename_i h0
      simp only [List.foldl_cons, List.foldl_nil, hd.2.2]
      omega
    · rename_i h0
      rw [toDigitsCore_append]
      simp only [List.foldl_append, List.foldl_cons, List.foldl_nil, hd.2.2]
      rw [ih (n / 10) (by omega)]
      omega

theorem toDigitsCore_ne_nil (fuel n : Nat) : Nat.toDigitsCore 10 (fuel + 1) n [] ≠ [] := by
  simp only [Nat.toDigitsCore]
  split
  · simp
  · rw [toDigitsCore_append]
    simp

theorem readDecimal_digits (ds : List Char) (hds : ∀ c ∈ ds, c.isDigit = true ∧ c ≠ ']')
    (acc : Nat) (seen : Bool) (tail : List Char) (hne : seen = true ∨ ds ≠ []) :
    readDecimal (ds ++ ']' :: tail) acc seen =
      some (ds.foldl (fun acc c => acc * 10 + (c.toNat - 48)) acc) := by
  induction ds generalizing acc seen with
  | nil =>
    rcases hne with h | h
    · simp [readDecimal, h]
    · exact absurd rfl h
  | cons d ds ih =>
    have hd := hds d (List.mem_cons_self _ _)
    simp only [List.cons_append, readDecimal, hd.2, if_false, hd.1, if_true, List.foldl_cons]
    exact ih (fun c hc => hds c (List.mem_cons_of_mem _ hc)) _ true (Or.inl rfl)

theorem readDecimal_repr (k : Nat) (tail : List Char) :
    readDecimal ((toString k).data ++ ']' :: tail) 0 false = some k := by
  have h : (toString k).data = Nat.toDigitsCore 10 (k + 1) k [] := rfl
  rw [h, readDecimal_digits _ (toDigitsCore_digits _ _) 0 false tail
    (Or.inr (toDigitsCore_ne_nil _ _)), toDigitsCore_value _ _ (Nat.lt_succ_self k)]

theorem toString_natCast (k : Nat) : toString ((k : Nat) : Int) = toString k := rfl

theorem blockId_header (k : Nat) (rest : String) :
    blockId (ansi.cyan ++ "[" ++ toString ((k : Nat) : Int) ++ "]" ++ rest) = some k := by
  have hd : (ansi.cyan ++ "[" ++ toString ((k : Nat) : Int) ++ "]" ++ rest).data =
      '\x1b' :: '[' :: '3' :: '6' :: 'm' :: '[' :: ((toString k).data ++ ']' :: rest.data) := by
    rw [toString_natCast]
    simp [String.data_append, ansi]
  unfold blockId
  rw [hd]
  exact readDecimal_repr k rest.data

/-- The id read off a block that `formatOutput` printed for task `k` is `k`. -/
theorem blockId_formatOutput (k : Nat) (host : String) (err : Option String)
    (stdout stderr t : String) :
    blockId (formatOutput k host err stdout stderr t) = some k := by
  cases err with
  | none =>
    rw [formatOutput_none]
    simp only [blockHeader, String.append_assoc]
    simpa only [String.append_assoc] using blockId_header k _
  | some e =>
    rw [formatOutput_some]
    simp only [blockHeader, String.append_assoc]
    simpa only [String.append_assoc] using blockId_header k _

theorem runSSHCommand_ok {id : Int} {host : String} {sshArgs : List String}
    {os : Cmd → ProcEnv} {txt : String}
    (h : runSSHCommand id host sshArgs os = Except.ok txt) :
    txt = formatOutput id host (os (sshCommand host sshArgs)).waitErr
      (os (sshCommand host sshArgs)).stdout (os (sshCommand host sshArgs)).stderr
      (os (sshCommand host sshArgs)).now := by
  simp only [runSSHCommand] at h
  split at h
  · cases h
  · split at h
    · cases h
    · split at h
      · cases h
      · injection h with h
        exact h.symm

/-! ## The dispatch loop -/

theorem dispatchFrom_eq (sshArgs : List String) (hosts : List String) (i : Nat)
    (st : DispatchState) :
    dispatchFrom sshArgs i hosts st =
      { counter := st.counter + hosts.length,
        launched := st.launched ++
          (hosts.enumFrom i).map (fun p => (⟨p.1, p.2, sshArgs⟩ : Launch)) } := by
  induction hosts generalizing i st with
  | nil => simp [dispatchFrom]
  | cons h hs ih =>
    simp only [dispatchFrom, ih, List.enumFrom_cons, List.map_cons, List.length_cons,
      List.append_assoc, List.singleton_append]
    congr 1
    push_cast
    ring

theorem dispatch_launched (hosts : List String) (sshArgs : List String) :
    (dispatch hosts sshArgs).launched =
      hosts.enum.map (fun p => (⟨p.1, p.2, sshArgs⟩ : Launch)) := by
  simp [dispatch, dispatchFrom_eq, List.enum]

theorem dispatch_launched_length (hosts : List String) (sshArgs : List String) :
    (dispatch hosts sshArgs).launched.length = hosts.length := by
  simp [dispatch_launched]

/-- C2: for every host list `hosts` (the empty one included) and argument
vector `sshArgs`, the loop of main makes exactly `hosts.length` launches; the
launch at position `k` is `runSSHCommand(k, hosts[k], sshArgs)`, so ids are the
zero-based positions, launches follow the order of the list and all carry the
same arguments; the counter has been raised once per host; hosts are not
merged: the hosts of the launches are the host list itself, a host that
occurs `m` times is launched `m` times, and all ids are distinct. -/
theorem dispatch_launches (hosts : List String) (sshArgs : List String) :
    (dispatch hosts sshArgs).launched.length = hosts.length
      ∧ (∀ (k : Nat) (hk : k < hosts.length),
          (dispatch hosts sshArgs).launched[k]? = some ⟨k, hosts[k], sshArgs⟩)
      ∧ (dispatch hosts sshArgs).counter = hosts.length
      ∧ (dispatch hosts sshArgs).launched.map Launch.host = hosts
      ∧ (dispatch hosts sshArgs).launched.map Launch.id = List.range hosts.length
      ∧ ((dispatch hosts sshArgs).launched.map Launch.id).Nodup
      ∧ (∀ h : String,
          ((dispatch hosts sshArgs).launched.filter (fun l => l.host = h)).length =
            hosts.count h) := by
  have hhost : (dispatch hosts sshArgs).launched.map Launch.host = hosts := by
    rw [dispatch_launched, List.map_map]
    have : (Launch.host ∘ fun p : Nat × String => (⟨p.1, p.2, sshArgs⟩ : Launch)) = Prod.snd := by
      funext p; rfl
    rw [this, List.enum_map_snd]
  have hid : (dispatch hosts sshArgs).launched.map Launch.id = List.range hosts.length := by
    rw [dispatch_launched, List.map_map]
    have : (Launch.id ∘ fun p : Nat × String => (⟨p.1, p.2, sshArgs⟩ : Launch)) = Prod.fst := by
      funext p; rfl
    rw [this, List.enum_map_fst]
  refine ⟨?_, ?_, ?_, hhost, hid, ?_, ?_⟩
  · simp [dispatch_launched]
  · intro k hk
    rw [dispatch_launched, List.getElem?_map, List.getElem?_enum, List.getElem?_eq_getElem hk]
    rfl
  · simp [dispatch, dispatchFrom_eq]
  · rw [hid]
    exact List.nodup_range _
  · intro h
    have hc : ((dispatch hosts sshArgs).launched.map Launch.host).count h = hosts.count h := by
      rw [hhost]
    rw [← hc, List.count, List.countP_map, List.countP_eq_length_filter]
    congr 1

/-! ## Host list acquisition -/

theorem foldl_append_hosts (lines : List String) (g : Globals) :
    lines.foldl (fun g line => ({ g with hosts := g.hosts ++ [line] } : Globals)) g =
      { g with hosts := g.hosts ++ lines } := by
  induction lines generalizing g with
  | nil => simp
  | cons l ls ih => simp [ih]

theorem parseHostsString_eq (g : Globals) (s : String) :
    parseHostsString g s =
      if Fields g.hostString = [] then Except.error "can't parse hosts string"
      else Except.ok ({ g with hosts := Fields g.hostString }, Fields g.hostString) := by
  unfold parseHostsString
  by_cases h : Fields g.hostString = [] <;> simp [h]

theorem parseHostFile_eq (g : Globals) (path : String) (fs : String → FileRead) :
    parseHostFile g path fs =
      match (fs path).openErr with
      | some e => Except.error e
      | none =>
        match (fs path).scanErr with
        | some e => Except.error e
        | none =>
          if g.hosts ++ (fs path).lines = [] then Except.error "hosts file in empty"
          else Except.ok ({ g with hosts := g.hosts ++ (fs path).lines },
                          g.hosts ++ (fs path).lines) := by
  unfold parseHostFile
  simp only [foldl_append_hosts]
  cases (fs path).openErr with
  | some e => rfl
  | none =>
    cases (fs path).scanErr with
    | some e => rfl
    | none =>
      by_cases h : g.hosts ++ (fs path).lines = []
      · simp only [h, List.length_nil, if_true]
      · have h2 : (g.hosts ++ (fs path).lines).length ≠ 0 := by
          intro h0
          exact h (List.length_eq_zero.mp h0)
        simp only [h, h2, if_false]

/-- The host list main works with: the fields of the `-H` string when it is
set, the lines of the `-h` file otherwise. -/
theorem main_ok (flags : Globals) (fs : String → FileRead) (st : DispatchState)
    (h : main flags fs = Except.ok st) :
    ∃ hosts : List String, hosts ≠ []
      ∧ hosts = (if flags.hostString = "" then (fs flags.hostFile).lines
                 else Fields flags.hostString)
      ∧ st = dispatch hosts (combineSSHCommand { flags with hosts := hosts }) := by
  unfold main at h
  simp only [parseCommandLineArguments] at h
  split at h
  · exact absurd h (by simp)
  · rename_i g hg
    split at hg
    · exact absurd hg (by simp)
    · split at hg
      · exact absurd hg (by simp)
      · injection hg with hg
        subst hg
        by_cases hs : flags.hostString = ""
        · have hl : flags.hostString.length = 0 := by rw [hs]; rfl
          simp only [hl, if_true, parseHostFile_eq, List.nil_append] at h
          split at h
          · exact absurd h (by simp)
          · rename_i g2 hosts hp
            split at hp
            · exact absurd hp (by simp)
            · split at hp
              · exact absurd hp (by simp)
              · split at hp
                · exact absurd hp (by simp)
                · rename_i hne
                  injection hp with hp
                  injection hp with hg2 hhosts
                  subst hg2 hhosts
                  injection h with h
                  exact ⟨_, hne, by simp [hs], h.symm⟩
        · have hl : flags.hostString.length ≠ 0 := (length_ne_zero_iff _).2 hs
          simp only [hl, if_false, parseHostsString_eq] at h
          split at h
          · exact absurd h (by simp)
          · rename_i g2 hosts hp
            split at hp
            · exact absurd hp (by simp)
            · rename_i hne
              injection hp with hp
              injection hp with hg2 hhosts
              subst hg2 hhosts
              injection h with h
              exact ⟨_, hne, by simp [hs], h.symm⟩

theorem main_error_of_no_hosts (flags : Globals) (fs : String → FileRead)
    (h : (if flags.hostString = "" then (fs flags.hostFile).lines
          else Fields flags.hostString) = []) :
    ∃ e, main flags fs = Except.error e := by
  cases hm : main flags fs with
  | error e => exact ⟨e, rfl⟩
  | ok st =>
    obtain ⟨hosts, hne, heq, _⟩ := main_ok flags fs st hm
    exact absurd (heq.trans h) hne

/-- C7: a host source that yields no host is rejected before the loop.  In
main, where `parseHostsString` receives the package-level hosts string and
`hosts` starts empty: a hosts string without a field makes `parseHostsString`
abort, a hosts file without a line makes `parseHostFile` abort, and main then
aborts with no launch; whenever main reaches `wg.Wait()` the host list it
looped over is non-empty and it made one launch per host, at least one. -/
theorem main_rejects_zero_hosts (flags : Globals) (fs : String → FileRead) :
    (∀ g : Globals, Fields g.hostString = [] →
        parseHostsString g g.hostString = Except.error "can't parse hosts string")
      ∧ (∀ (g : Globals) (path : String), g.hosts = [] → (fs path).lines = [] →
          ∃ e, parseHostFile g path fs = Except.error e)
      ∧ (flags.hostString ≠ "" → Fields flags.hostString = [] →
          (∃ e, main flags fs = Except.error e)
            ∧ launchesOf (main flags fs) = [])
      ∧ (flags.hostString = "" → (fs flags.hostFile).lines = [] →
          (∃ e, main flags fs = Except.error e)
            ∧ launchesOf (main flags fs) = [])
      ∧ (∀ st : DispatchState, main flags fs = Except.ok st →
          ∃ hosts : List String, 1 ≤ hosts.length
            ∧ hosts = (if flags.hostString = "" then (fs flags.hostFile).lines
                       else Fields flags.hostString)
            ∧ st = dispatch hosts (combineSSHCommand { flags with hosts := hosts })
            ∧ st.launched.length = hosts.length)
      ∧ (launchesOf (main flags fs) ≠ [] →
          ∃ st, main flags fs = Except.ok st ∧ 1 ≤ st.launched.length) := by
  refine ⟨?_, ?_, ?_, ?_, ?_, ?_⟩
  · intro g hg
    rw [parseHostsString_eq, if_pos hg]
  · intro g path hh hl
    rw [parseHostFile_eq]
    cases (fs path).openErr with
    | some e => exact ⟨e, rfl⟩
    | none =>
      cases (fs path).scanErr with
      | some e => exact ⟨e, rfl⟩
      | none => exact ⟨"hosts file in empty", by simp [hh, hl]⟩
  · intro hs hf
    obtain ⟨e, he⟩ := main_error_of_no_hosts flags fs (by simp [hs, hf])
    exact ⟨⟨e, he⟩, by rw [he]; rfl⟩
  · intro hs hl
    obtain ⟨e, he⟩ := main_error_of_no_hosts flags fs (by simp [hs, hl])
    exact ⟨⟨e, he⟩, by rw [he]; rfl⟩
  · intro st hst
    obtain ⟨hosts, hne, heq, hd⟩ := main_ok flags fs st hst
    refine ⟨hosts, ?_, heq, hd, ?_⟩
    · exact Nat.one_le_iff_ne_zero.mpr (fun h0 => hne (List.length_eq_zero.mp h0))
    · rw [hd]
      exact dispatch_launched_length hosts _
  · intro hne
    cases hm : main flags fs with
    | error e => rw [hm] at hne; exact absurd rfl hne
    | ok st =>
      obtain ⟨hosts, hne2, _, hd⟩ := main_ok flags fs st hm
      refine ⟨st, rfl, ?_⟩
      rw [hd, dispatch_launched_length hosts _]
      exact Nat.one_le_iff_ne_zero.mpr (fun h0 => hne2 (List.length_eq_zero.mp h0))

/-- The rejection theorem at the flags `-H "  " -i uptime`: the hosts string is
not empty but has no field, main aborts and launches nothing. -/
theorem main_rejects_zero_hosts_witness :
    (∃ e, main
        { hostFile := "", hostString := "  ", hosts := [], command := "uptime",
          user := "", sshOptions := "" }
        (fun _ => { openErr := some "no such file", lines := [], scanErr := none })
        = Except.error e)
      ∧ launchesOf (main
        { hostFile := "", hostString := "  ", hosts := [], command := "uptime",
          user := "", sshOptions := "" }
        (fun _ => { openErr := some "no such file", lines := [], scanErr := none })) = [] :=
  (main_rejects_zero_hosts
      { hostFile := "", hostString := "  ", hosts := [], command := "uptime",
        user := "", sshOptions := "" }
      (fun _ => { openErr := some "no such file", lines := [], scanErr := none })).2.2.1
    (by decide) (by decide)

/-- C10: `parseHostsString` evaluated with the package-level `hostString` set
to `a` and the argument `b`: the result is the fields of the package-level
string, `a`, and not the field `b` of the argument; with an argument that has
no field it still returns `a`; with the package-level string empty it aborts
although the argument has the field `b`. -/
theorem parseHostsString_reads_global :
    (parseHostsString
        { hostFile := "", hostString := "a", hosts := [], command := "uptime",
          user := "", sshOptions := "" } "b").toOption.map Prod.snd = some ["a"]
      ∧ Fields "b" = ["b"]
      ∧ (parseHostsString
        { hostFile := "", hostString := "a", hosts := [], command := "uptime",
          user := "", sshOptions := "" } "").toOption.map Prod.snd = some ["a"]
      ∧ Fields "" = []
      ∧ (parseHostsString
        { hostFile := "", hostString := "", hosts := [], command := "uptime",
          user := "", sshOptions := "" } "b").toOption.map Prod.snd = none := by
  refine ⟨?_, ?_, ?_, ?_, ?_⟩ <;> decide

/-! ## The concurrent system -/

theorem inv_init (hosts sshArgs : List String) : Inv hosts sshArgs Sys.init := by
  refine ⟨?_, ?_, ?_, ?_, ?_, ?_, ?_⟩ <;> simp [Sys.init, Sys.pending, pendingTasks, Sys.sinkIds]

theorem pendingTasks_set_pending (tasks : List Task) (k : Nat) (t t1 : Task)
    (hk : tasks[k]? = some t) (ht : t.pc ≠ TaskPc.finished) (ht1 : t1.pc ≠ TaskPc.finished) :
    pendingTasks (tasks.set k t1) = pendingTasks tasks := by
  obtain ⟨hlt, hget⟩ := List.getElem?_eq_some_iff.mp hk
  unfold pendingTasks
  rw [List.countP_set _ _ _ _ hlt]
  have hpos : 0 < tasks.countP (fun t => decide (t.pc ≠ TaskPc.finished)) := by
    apply List.countP_pos_iff.mpr
    exact ⟨t, hget ▸ List.getElem_mem hlt, by simpa using ht⟩
  simp only [ne_eq, decide_not] at hpos
  simp [hget, ht, ht1]
  omega

theorem pendingTasks_set_finished (tasks : List Task) (k : Nat) (t t1 : Task)
    (hk : tasks[k]? = some t) (ht : t.pc ≠ TaskPc.finished) (ht1 : t1.pc = TaskPc.finished) :
    pendingTasks (tasks.set k t1) + 1 = pendingTasks tasks := by
  obtain ⟨hlt, hget⟩ := List.getElem?_eq_some_iff.mp hk
  unfold pendingTasks
  rw [List.countP_set _ _ _ _ hlt]
  have hpos : 0 < tasks.countP (fun t => decide (t.pc ≠ TaskPc.finished)) := by
    apply List.countP_pos_iff.mpr
    exact ⟨t, hget ▸ List.getElem_mem hlt, by simpa using ht⟩
  simp only [ne_eq, decide_not] at hpos
  simp [hget, ht, ht1]
  omega

theorem step_add_some {hosts sshArgs : List String} {s s1 : Sys}
    (h : step hosts sshArgs s Ev.add = some s1) :
    s.exited = false ∧ s.waitReturned = false ∧ s.addPending = false
      ∧ s.tasks.length < hosts.length
      ∧ s1 = { s with addPending := true, counter := s.counter + 1 } := by
  simp only [step] at h
  split at h
  · cases h
  · rename_i hg
    split at h
    · rename_i hlt
      injection h with h
      simp only [Bool.or_eq_true, not_or, Bool.not_eq_true] at hg
      exact ⟨hg.1.1, hg.1.2, hg.2, hlt, h.symm⟩
    · cases h

theorem step_go_some {hosts sshArgs : List String} {s s1 : Sys}
    (h : step hosts sshArgs s Ev.go = some s1) :
    s.exited = false ∧ s.waitReturned = false ∧ s.addPending = true
      ∧ ∃ host, hosts[s.tasks.length]? = some host
      ∧ s1 = { s with addPending := false,
                      tasks := s.tasks ++ [⟨⟨s.tasks.length, host, sshArgs⟩, TaskPc.running⟩] } := by
  simp only [step] at h
  split at h
  · cases h
  · rename_i hg
    simp only [Bool.or_eq_true, not_or, Bool.not_eq_true, Bool.not_eq_true',
      Bool.not_eq_false] at hg
    split at h
    · rename_i host hhost
      injection h with h
      exact ⟨hg.1.1, hg.1.2, hg.2, host, hhost, h.symm⟩
    · cases h

theorem step_exec_some {hosts sshArgs : List String} {s s1 : Sys} {k : Nat}
    {os : Cmd → ProcEnv} (h : step hosts sshArgs s (Ev.exec k os) = some s1) :
    s.exited = false ∧ s.waitReturned = false
      ∧ ∃ t, s.tasks[k]? = some t ∧ t.pc = TaskPc.running
      ∧ ((∃ e, runSSHCommand t.launch.id t.launch.host t.launch.sshArgs os = Except.error e
            ∧ s1 = { s with exited := true })
         ∨ (∃ block, runSSHCommand t.launch.id t.launch.host t.launch.sshArgs os = Except.ok block
            ∧ s1 = { s with sink := s.sink ++ [block],
                            tasks := s.tasks.set k { t with pc := TaskPc.printed } })) := by
  simp only [step] at h
  split at h
  · cases h
  · rename_i hg
    simp only [Bool.or_eq_true, not_or, Bool.not_eq_true] at hg
    split at h
    · rename_i t ht
      split at h
      · rename_i hpc
        split at h
        · rename_i e he
          injection h with h
          exact ⟨hg.1, hg.2, t, ht, hpc, Or.inl ⟨e, he, h.symm⟩⟩
        · rename_i block hb
          injection h with h
          exact ⟨hg.1, hg.2, t, ht, hpc, Or.inr ⟨block, hb, h.symm⟩⟩
      · cases h
    · cases h

theorem step_block_some {hosts sshArgs : List String} {s s1 : Sys} {k : Nat}
    (h : step hosts sshArgs s (Ev.block k) = some s1) :
    s.exited = false ∧ s.waitReturned = false
      ∧ ∃ t, s.tasks[k]? = some t ∧ t.pc = TaskPc.running
      ∧ s1 = { s with tasks := s.tasks.set k { t with pc := TaskPc.blocked } } := by
  simp only [step] at h
  split at h
  · cases h
  · rename_i hg
    simp only [Bool.or_eq_true, not_or, Bool.not_eq_true] at hg
    split at h
    · rename_i t ht
      split at h
      · rename_i hpc
        injection h with h
        exact ⟨hg.1, hg.2, t, ht, hpc, h.symm⟩
      · cases h
    · cases h

theorem step_done_some {hosts sshArgs : List String} {s s1 : Sys} {k : Nat}
    (h : step hosts sshArgs s (Ev.done k) = some s1) :
    s.exited = false ∧ s.waitReturned = false
      ∧ ∃ t, s.tasks[k]? = some t ∧ t.pc = TaskPc.printed
      ∧ s1 = { s with counter := s.counter - 1,
                      tasks := s.tasks.set k { t with pc := TaskPc.finished } } := by
  simp only [step] at h
  split at h
  · cases h
  · rename_i hg
    simp only [Bool.or_eq_true, not_or, Bool.not_eq_true] at hg
    split at h
    · rename_i t ht
      split at h
      · rename_i hpc
        injection h with h
        exact ⟨hg.1, hg.2, t, ht, hpc, h.symm⟩
      · cases h
    · cases h

theorem step_waitReturn_some {hosts sshArgs : List String} {s s1 : Sys}
    (h : step hosts sshArgs s Ev.waitReturn = some s1) :
    s.exited = false ∧ s.waitReturned = false ∧ s.addPending = false
      ∧ s.tasks.length = hosts.length ∧ s.counter = 0
      ∧ s1 = { s with waitReturned := true } := by
  simp only [step] at h
  split at h
  · cases h
  · rename_i hg
    simp only [Bool.or_eq_true, not_or, Bool.not_eq_true] at hg
    split at h
    · rename_i hc
      injection h with h
      exact ⟨hg.1.1, hg.1.2, hg.2, hc.1, hc.2, h.symm⟩
    · cases h


theorem inv_add {hosts sshArgs : List String} {s : Sys} (hinv : Inv hosts sshArgs s)
    (hp : s.addPending = false) (hw : s.waitReturned = false)
    (hlt : s.tasks.length < hosts.length) :
    Inv hosts sshArgs { s with addPending := true, counter := s.counter + 1 } := by
  refine ⟨hinv.launchOk, ?_, ?_, hinv.sinkNodup, hinv.sinkMem, hinv.formatted, ?_⟩
  · simp only [if_true]
    omega
  · have h := hinv.counterEq
    simp only [Sys.pending, hp] at h ⊢
    simp only [h]
    simp
  · intro h
    simp only [hw] at h
    cases h

theorem inv_go {hosts sshArgs : List String} {s : Sys} (hinv : Inv hosts sshArgs s)
    (hp : s.addPending = true) (hw : s.waitReturned = false) (host : String)
    (hhost : hosts[s.tasks.length]? = some host) :
    Inv hosts sshArgs
      { s with
        addPending := false
        tasks := s.tasks ++ [⟨⟨s.tasks.length, host, sshArgs⟩, TaskPc.running⟩] } := by
  refine ⟨?_, ?_, ?_, hinv.sinkNodup, ?_, hinv.formatted, ?_⟩
  · intro k t hk
    by_cases hlt : k < s.tasks.length
    · rw [List.getElem?_append_left hlt] at hk
      exact hinv.launchOk k t hk
    · have hge : s.tasks.length ≤ k := Nat.le_of_not_lt hlt
      rw [List.getElem?_append_right hge] at hk
      have hk0 : k - s.tasks.length = 0 := by
        by_contra hne
        have : 1 ≤ k - s.tasks.length := Nat.one_le_iff_ne_zero.mpr hne
        rw [List.getElem?_eq_none (by simpa using this)] at hk
        cases hk
      rw [hk0] at hk
      simp only [List.getElem?_cons_zero, Option.some.injEq] at hk
      have hke : k = s.tasks.length := by omega
      subst hk
      subst hke
      exact ⟨rfl, hhost, rfl⟩
  · have h := hinv.bound
    simp only [hp, if_true] at h
    simp only [List.length_append, List.length_singleton, Bool.false_eq_true, if_false]
    omega
  · have h := hinv.counterEq
    simp only [Sys.pending, hp, pendingTasks] at h ⊢
    simp only [h, List.countP_append]
    simp
  · intro k
    show k ∈ s.sinkIds ↔ _
    rw [hinv.sinkMem k]
    constructor
    · rintro ⟨t, ht, hpc⟩
      have hlt : k < s.tasks.length := (List.getElem?_eq_some_iff.mp ht).1
      exact ⟨t, by rw [List.getElem?_append_left hlt]; exact ht, hpc⟩
    · rintro ⟨t, ht, hpc⟩
      by_cases hlt : k < s.tasks.length
      · rw [List.getElem?_append_left hlt] at ht
        exact ⟨t, ht, hpc⟩
      · exfalso
        have hge : s.tasks.length ≤ k := Nat.le_of_not_lt hlt
        rw [List.getElem?_append_right hge] at ht
        by_cases hk0 : k - s.tasks.length = 0
        · rw [hk0] at ht
          simp only [List.getElem?_cons_zero, Option.some.injEq] at ht
          subst ht
          rcases hpc with hpc | hpc <;> cases hpc
        · have : 1 ≤ k - s.tasks.length := Nat.one_le_iff_ne_zero.mpr hk0
          rw [List.getElem?_eq_none (by simpa using this)] at ht
          cases ht
  · intro h
    simp only [hw] at h
    cases h

theorem sinkIds_append (s : Sys) (txt : String) (k : Nat) (h : blockId txt = some k) :
    (s.sink ++ [txt]).filterMap blockId = s.sinkIds ++ [k] := by
  simp [Sys.sinkIds, List.filterMap_append, h]

theorem inv_exec_ok {hosts sshArgs : List String} {s : Sys} (hinv : Inv hosts sshArgs s)
    (hw : s.waitReturned = false) (k : Nat) (t : Task) (os : Cmd → ProcEnv) (block : String)
    (ht : s.tasks[k]? = some t) (hpc : t.pc = TaskPc.running)
    (hb : runSSHCommand t.launch.id t.launch.host t.launch.sshArgs os = Except.ok block) :
    Inv hosts sshArgs
      { s with
        sink := s.sink ++ [block]
        tasks := s.tasks.set k { t with pc := TaskPc.printed } } := by
  obtain ⟨hid, hhost, hargs⟩ := hinv.launchOk k t ht
  have hklt : k < s.tasks.length := (List.getElem?_eq_some_iff.mp ht).1
  have htxt := runSSHCommand_ok hb
  have hbid : blockId block = some k := by
    rw [htxt, hid]
    exact blockId_formatOutput k _ _ _ _ _
  have hids : (s.sink ++ [block]).filterMap blockId = s.sinkIds ++ [k] :=
    sinkIds_append s block k hbid
  refine ⟨?_, ?_, ?_, ?_, ?_, ?_, ?_⟩
  · intro j u hj
    simp only [List.getElem?_set] at hj
    by_cases hkj : k = j
    · subst hkj
      simp only [if_true, hklt, Option.some.injEq] at hj
      subst hj
      exact ⟨hid, hhost, hargs⟩
    · simp only [hkj, if_false] at hj
      exact hinv.launchOk j u hj
  · simpa using hinv.bound
  · have h := hinv.counterEq
    simp only [Sys.pending] at h ⊢
    rw [pendingTasks_set_pending s.tasks k t { t with pc := TaskPc.printed } ht
      (by rw [hpc]; decide) (by simp)]
    exact h
  · have hnot : k ∉ s.sinkIds := by
      intro hmem
      obtain ⟨u, hu, hupc⟩ := (hinv.sinkMem k).mp hmem
      rw [ht] at hu
      injection hu with hu
      subst hu
      rw [hpc] at hupc
      rcases hupc with h | h <;> cases h
    show ((s.sink ++ [block]).filterMap blockId).Nodup
    rw [hids, List.nodup_append]
    refine ⟨hinv.sinkNodup, List.nodup_singleton k, ?_⟩
    intro a ha hb2
    simp only [List.mem_singleton] at hb2
    subst hb2
    exact hnot ha
  · intro j
    show j ∈ (s.sink ++ [block]).filterMap blockId ↔ _
    rw [hids]
    simp only [List.mem_append, List.mem_singleton, List.getElem?_set]
    rw [hinv.sinkMem j]
    by_cases hkj : k = j
    · subst hkj
      simp only [if_true, hklt, Option.some.injEq]
      constructor
      · intro _
        exact ⟨_, rfl, Or.inl rfl⟩
      · intro _
        exact Or.inr trivial
    · simp only [hkj, if_false]
      constructor
      · rintro (h | h)
        · exact h
        · exact absurd h.symm hkj
      · intro h
        exact Or.inl h
  · intro txt hmem
    simp only [List.mem_append, List.mem_singleton] at hmem
    rcases hmem with hmem | hmem
    · exact hinv.formatted txt hmem
    · subst hmem
      refine ⟨k, t.launch.host, os, hhost, ?_, ?_, hbid⟩
      · rw [← hid, ← hargs]
        exact hb
      · rw [htxt, hid, hargs]
  · intro h
    simp only [hw] at h
    cases h

theorem inv_block {hosts sshArgs : List String} {s : Sys} (hinv : Inv hosts sshArgs s)
    (hw : s.waitReturned = false) (k : Nat) (t : Task)
    (ht : s.tasks[k]? = some t) (hpc : t.pc = TaskPc.running) :
    Inv hosts sshArgs { s with tasks := s.tasks.set k { t with pc := TaskPc.blocked } } := by
  obtain ⟨hid, hhost, hargs⟩ := hinv.launchOk k t ht
  have hklt : k < s.tasks.length := (List.getElem?_eq_some_iff.mp ht).1
  refine ⟨?_, ?_, ?_, hinv.sinkNodup, ?_, hinv.formatted, ?_⟩
  · intro j u hj
    simp only [List.getElem?_set] at hj
    by_cases hkj : k = j
    · subst hkj
      simp only [if_true, hklt, Option.some.injEq] at hj
      subst hj
      exact ⟨hid, hhost, hargs⟩
    · simp only [hkj, if_false] at hj
      exact hinv.launchOk j u hj
  · simpa using hinv.bound
  · have h := hinv.counterEq
    simp only [Sys.pending] at h ⊢
    rw [pendingTasks_set_pending s.tasks k t { t with pc := TaskPc.blocked } ht
      (by rw [hpc]; decide) (by simp)]
    exact h
  · intro j
    show j ∈ s.sinkIds ↔ _
    rw [hinv.sinkMem j]
    simp only [List.getElem?_set]
    by_cases hkj : k = j
    · subst hkj
      simp only [if_true, hklt, Option.some.injEq]
      constructor
      · rintro ⟨u, hu, hupc⟩
        rw [ht] at hu
        injection hu with hu
        subst hu
        rw [hpc] at hupc
        rcases hupc with h | h <;> cases h
      · rintro ⟨u, hu, hupc⟩
        subst hu
        rcases hupc with h | h <;> cases h
    · simp only [hkj, if_false]
  · intro h
    simp only [hw] at h
    cases h

theorem inv_done {hosts sshArgs : List String} {s : Sys} (hinv : Inv hosts sshArgs s)
    (hw : s.waitReturned = false) (k : Nat) (t : Task)
    (ht : s.tasks[k]? = some t) (hpc : t.pc = TaskPc.printed) :
    Inv hosts sshArgs
      { s with
        counter := s.counter - 1
        tasks := s.tasks.set k { t with pc := TaskPc.finished } } := by
  obtain ⟨hid, hhost, hargs⟩ := hinv.launchOk k t ht
  have hklt : k < s.tasks.length := (List.getElem?_eq_some_iff.mp ht).1
  refine ⟨?_, ?_, ?_, hinv.sinkNodup, ?_, hinv.formatted, ?_⟩
  · intro j u hj
    simp only [List.getElem?_set] at hj
    by_cases hkj : k = j
    · subst hkj
      simp only [if_true, hklt, Option.some.injEq] at hj
      subst hj
      exact ⟨hid, hhost, hargs⟩
    · simp only [hkj, if_false] at hj
      exact hinv.launchOk j u hj
  · simpa using hinv.bound
  · have h := hinv.counterEq
    have h2 := pendingTasks_set_finished s.tasks k t { t with pc := TaskPc.finished } ht
      (by rw [hpc]; decide) rfl
    simp only [Sys.pending] at h ⊢
    rw [h]
    omega
  · intro j
    show j ∈ s.sinkIds ↔ _
    rw [hinv.sinkMem j]
    simp only [List.getElem?_set]
    by_cases hkj : k = j
    · subst hkj
      simp only [if_true, hklt, Option.some.injEq]
      constructor
      · intro _
        exact ⟨_, rfl, Or.inr rfl⟩
      · intro _
        exact ⟨t, ht, Or.inl hpc⟩
    · simp only [hkj, if_false]
  · intro h
    simp only [hw] at h
    cases h

theorem inv_step {hosts sshArgs : List String} {s s1 : Sys} {ev : Ev}
    (hinv : Inv hosts sshArgs s) (hstep : step hosts sshArgs s ev = some s1) :
    Inv hosts sshArgs s1 := by
  cases ev with
  | add =>
    obtain ⟨_, hw, hp, hlt, rfl⟩ := step_add_some hstep
    exact inv_add hinv hp hw hlt
  | go =>
    obtain ⟨_, hw, hp, host, hhost, rfl⟩ := step_go_some hstep
    exact inv_go hinv hp hw host hhost
  | exec k os =>
    obtain ⟨_, hw, t, ht, hpc, h⟩ := step_exec_some hstep
    rcases h with ⟨e, _, rfl⟩ | ⟨block, hb, rfl⟩
    · exact ⟨hinv.launchOk, hinv.bound, hinv.counterEq, hinv.sinkNodup, hinv.sinkMem,
        hinv.formatted, fun h => by simp only [hw] at h; cases h⟩
    · exact inv_exec_ok hinv hw k t os block ht hpc hb
  | block k =>
    obtain ⟨_, hw, t, ht, hpc, rfl⟩ := step_block_some hstep
    exact inv_block hinv hw k t ht hpc
  | done k =>
    obtain ⟨_, hw, t, ht, hpc, rfl⟩ := step_done_some hstep
    exact inv_done hinv hw k t ht hpc
  | waitReturn =>
    obtain ⟨_, _, hp, hlen, hc, rfl⟩ := step_waitReturn_some hstep
    exact ⟨hinv.launchOk, hinv.bound, hinv.counterEq, hinv.sinkNodup, hinv.sinkMem,
      hinv.formatted, fun _ => ⟨hlen, hc⟩⟩

theorem inv_run {hosts sshArgs : List String} (evs : List Ev) {s s1 : Sys}
    (hinv : Inv hosts sshArgs s) (hrun : run hosts sshArgs s evs = some s1) :
    Inv hosts sshArgs s1 := by
  induction evs generalizing s with
  | nil =>
    simp only [run, Option.some.injEq] at hrun
    exact hrun ▸ hinv
  | cons e es ih =>
    simp only [run] at hrun
    split at hrun
    · rename_i s2 hs2
      exact ih (inv_step hinv hs2) hrun
    · cases hrun

theorem inv_all_finished {hosts sshArgs : List String} {s : Sys}
    (hinv : Inv hosts sshArgs s) (hw : s.waitReturned = true) :
    ∀ t ∈ s.tasks, t.pc = TaskPc.finished := by
  have hc := hinv.counterEq
  rw [(hinv.waited hw).2] at hc
  have hp : s.pending = 0 := by exact_mod_cast hc.symm
  have hpt : pendingTasks s.tasks = 0 := by
    simp only [Sys.pending] at hp
    omega
  intro t ht
  by_contra hne
  have : 0 < pendingTasks s.tasks :=
    List.countP_pos_iff.mpr ⟨t, ht, by simpa using hne⟩
  omega

theorem inv_sink_complete {hosts sshArgs : List String} {s : Sys}
    (hinv : Inv hosts sshArgs s) (hw : s.waitReturned = true) :
    s.sinkIds.Perm (List.range hosts.length) := by
  have hlen := (hinv.waited hw).1
  have hfin := inv_all_finished hinv hw
  apply (List.perm_ext_iff_of_nodup hinv.sinkNodup (List.nodup_range _)).mpr
  intro k
  rw [hinv.sinkMem k, List.mem_range]
  constructor
  · rintro ⟨t, ht, _⟩
    rw [← hlen]
    exact (List.getElem?_eq_some_iff.mp ht).1
  · intro hk
    rw [← hlen] at hk
    exact ⟨s.tasks[k], List.getElem?_eq_getElem hk, Or.inr (hfin _ (List.getElem_mem hk))⟩


/-! ## A launch error -/

theorem step_exited (hosts sshArgs : List String) (s : Sys) (h : s.exited = true) (ev : Ev) :
    step hosts sshArgs s ev = none := by
  cases ev <;> simp [step, h]

/-- C6, as the code behaves: a task whose `cmd.Start()` fails makes
`runSSHCommand` call `log.Fatal` with the launch error.  In the system this
step of the running executor `k` ends the process: no block is written for the
task, the counter is not lowered, and no further event of any executor or of
main is enabled, so no block of another host follows. -/
theorem start_error_is_fatal (hosts sshArgs : List String) (s : Sys) (k : Nat) (t : Task)
    (os : Cmd → ProcEnv) (e : String)
    (hex : s.exited = false) (hw : s.waitReturned = false)
    (ht : s.tasks[k]? = some t) (hpc : t.pc = TaskPc.running)
    (h1 : (os (sshCommand t.launch.host t.launch.sshArgs)).stderrPipeErr = none)
    (h2 : (os (sshCommand t.launch.host t.launch.sshArgs)).stdoutPipeErr = none)
    (h3 : (os (sshCommand t.launch.host t.launch.sshArgs)).startErr = some e) :
    runSSHCommand t.launch.id t.launch.host t.launch.sshArgs os = Except.error e
      ∧ step hosts sshArgs s (Ev.exec k os) = some { s with exited := true }
      ∧ ({ s with exited := true } : Sys).sink = s.sink
      ∧ ({ s with exited := true } : Sys).counter = s.counter
      ∧ (∀ ev : Ev, step hosts sshArgs { s with exited := true } ev = none) := by
  have hfatal : runSSHCommand t.launch.id t.launch.host t.launch.sshArgs os = Except.error e := by
    simp [runSSHCommand, h1, h2, h3]
  refine ⟨hfatal, ?_, rfl, rfl, fun ev => step_exited hosts sshArgs _ rfl ev⟩
  simp [step, hex, hw, ht, hpc, hfatal]

/-- The launch-error theorem on hosts `a`, `b` with both executors started,
when the launch for host `a` fails. -/
theorem start_error_is_fatal_witness :
    runSSHCommand 0 "a" ["uptime"] (osStartFails "fork/exec /usr/bin/ssh: permission denied")
        = Except.error "fork/exec /usr/bin/ssh: permission denied"
      ∧ step ["a", "b"] ["uptime"]
          { tasks := [⟨⟨0, "a", ["uptime"]⟩, TaskPc.running⟩, ⟨⟨1, "b", ["uptime"]⟩, TaskPc.running⟩],
            addPending := false, counter := 2, sink := [], waitReturned := false,
            exited := false }
          (Ev.exec 0 (osStartFails "fork/exec /usr/bin/ssh: permission denied")) =
        some
          { tasks := [⟨⟨0, "a", ["uptime"]⟩, TaskPc.running⟩, ⟨⟨1, "b", ["uptime"]⟩, TaskPc.running⟩],
            addPending := false, counter := 2, sink := [], waitReturned := false,
            exited := true } :=
  have h := start_error_is_fatal ["a", "b"] ["uptime"]
    { tasks := [⟨⟨0, "a", ["uptime"]⟩, TaskPc.running⟩, ⟨⟨1, "b", ["uptime"]⟩, TaskPc.running⟩],
      addPending := false, counter := 2, sink := [], waitReturned := false, exited := false }
    0 ⟨⟨0, "a", ["uptime"]⟩, TaskPc.running⟩
    (osStartFails "fork/exec /usr/bin/ssh: permission denied")
    "fork/exec /usr/bin/ssh: permission denied" rfl rfl rfl rfl rfl rfl rfl
  ⟨h.1, h.2.1⟩

/-- C6 as claimed fails: on hosts `a`, `b`, when the launch for host `a` fails
after both executors were started, `runSSHCommand` prints no block for task 0
but ends the process; standard output stays empty, the counter stays at 2,
and neither the block of host `b` nor `wg.Done()` of task 0 can follow. -/
theorem launch_failure_aborts_run :
    (runSSHCommand 0 "a" ["uptime"]
        (osStartFails "fork/exec /usr/bin/ssh: permission denied")).toOption = none
      ∧ (run ["a", "b"] ["uptime"] Sys.init
          [Ev.add, Ev.go, Ev.add, Ev.go,
           Ev.exec 0 (osStartFails "fork/exec /usr/bin/ssh: permission denied")]).map
          (fun s => (s.exited, s.sink, s.sinkIds, s.counter)) = some (true, [], [], 2)
      ∧ run ["a", "b"] ["uptime"] Sys.init
          [Ev.add, Ev.go, Ev.add, Ev.go,
           Ev.exec 0 (osStartFails "fork/exec /usr/bin/ssh: permission denied"),
           Ev.exec 1 (osExits "up" 0 "15:04:01")] = none
      ∧ run ["a", "b"] ["uptime"] Sys.init
          [Ev.add, Ev.go, Ev.add, Ev.go,
           Ev.exec 0 (osStartFails "fork/exec /usr/bin/ssh: permission denied"),
           Ev.done 0] = none := by
  refine ⟨?_, ?_, ?_, ?_⟩ <;> decide

/-! ## Draining the two pipes -/

theorem drainInv_init (script : List Action) : DrainInv script (Drain.init script) := by
  refine ⟨?_, ?_, ?_, ?_, ?_⟩ <;> simp [Drain.init]

theorem drainInv_child {script0 : List Action} {room : Stream → List UInt8 → Bool}
    {d d1 : Drain} (hinv : DrainInv script0 d)
    (hstep : Drain.step room d DrainEv.child = some d1) : DrainInv script0 d1 := by
  obtain ⟨ho, he, hu, hpo, hpe⟩ := hinv
  simp only [Drain.step] at hstep
  split at hstep
  · cases hstep
  · -- a write to standard output
    rename_i b rest hs
    split at hstep
    · rename_i hopen
      split at hstep
      · injection hstep with hstep
        subst hstep
        refine ⟨?_, ?_, hu, ?_, hpe⟩
        · rw [ho, hs]
          simp [written, hopen]
        · rw [he, hs]
          simp [written]
        · intro hne
          have h := (hpo hne).1
          rw [hopen] at h
          cases h
      · cases hstep
    · rename_i hopen
      injection hstep with hstep
      subst hstep
      refine ⟨?_, ?_, hu, hpo, hpe⟩
      · rw [ho]
        simp [hopen]
      · rw [he, hs]
        simp [written]
  · -- a write to standard error
    rename_i b rest hs
    split at hstep
    · rename_i hopen
      split at hstep
      · injection hstep with hstep
        subst hstep
        refine ⟨?_, ?_, hu, hpo, ?_⟩
        · rw [ho, hs]
          simp [written]
        · rw [he, hs]
          simp [written, hopen]
        · intro hpc
          have h := (hpe hpc).1
          rw [hopen] at h
          cases h
      · cases hstep
    · rename_i hopen
      injection hstep with hstep
      subst hstep
      refine ⟨?_, ?_, hu, hpo, hpe⟩
      · rw [ho, hs]
        simp [written]
      · rw [he]
        simp [hopen]
  · -- standard output is closed
    rename_i rest hs
    injection hstep with hstep
    subst hstep
    refine ⟨?_, ?_, hu, ?_, hpe⟩
    · rw [ho, hs]
      simp [written]
    · rw [he, hs]
      simp [written]
    · intro hne
      exact ⟨rfl, (hpo hne).2⟩
  · -- standard error is closed
    rename_i rest hs
    injection hstep with hstep
    subst hstep
    refine ⟨?_, ?_, hu, hpo, ?_⟩
    · rw [ho, hs]
      simp [written]
    · rw [he, hs]
      simp [written]
    · intro hpc
      exact ⟨rfl, (hpe hpc).2⟩
  · -- the child exits
    rename_i rest hs
    injection hstep with hstep
    subst hstep
    refine ⟨?_, ?_, hu, hpo, hpe⟩
    · rw [ho, hs]
      simp [written]
    · rw [he, hs]
      simp [written]

theorem drainInv_step {script0 : List Action} {room : Stream → List UInt8 → Bool}
    {d d1 : Drain} {ev : DrainEv} (hinv : DrainInv script0 d)
    (hstep : Drain.step room d ev = some d1) : DrainInv script0 d1 := by
  cases ev with
  | child => exact drainInv_child hinv hstep
  | read n =>
    obtain ⟨ho, he, hu, hpo, hpe⟩ := hinv
    simp only [Drain.step] at hstep
    split at hstep
    · rename_i hpc
      split at hstep
      · injection hstep with hstep
        subst hstep
        refine ⟨?_, he, hu, ?_, ?_⟩
        · rw [ho]
          simp only [List.append_assoc]
          rw [← List.append_assoc (List.take n d.outPipe), List.take_append_drop]
        · intro hne
          exact absurd hpc hne
        · intro h
          rw [hpc] at h
          rcases h with h | h <;> cases h
      · cases hstep
    · rename_i hpc
      split at hstep
      · injection hstep with hstep
        subst hstep
        refine ⟨ho, ?_, ?_, ?_, ?_⟩
        · rw [he]
          simp only [List.append_assoc]
          rw [← List.append_assoc (List.take n d.errPipe), List.take_append_drop]
        · intro h
          rw [hpc] at h
          cases h
        · intro hne
          exact hpo hne
        · intro h
          rw [hpc] at h
          rcases h with h | h <;> cases h
      · cases hstep
    · cases hstep
  | eof =>
    obtain ⟨ho, he, hu, hpo, hpe⟩ := hinv
    simp only [Drain.step] at hstep
    split at hstep
    · rename_i hpc
      split at hstep
      · rename_i hc
        injection hstep with hstep
        subst hstep
        refine ⟨ho, he, ?_, ?_, ?_⟩
        · intro h
          cases h
        · intro _
          exact ⟨hc.2, List.isEmpty_iff.mp hc.1⟩
        · intro h
          rcases h with h | h <;> cases h
      · cases hstep
    · rename_i hpc
      split at hstep
      · rename_i hc
        injection hstep with hstep
        subst hstep
        refine ⟨ho, he, ?_, ?_, ?_⟩
        · intro h
          cases h
        · intro _
          exact hpo (by rw [hpc]; decide)
        · intro _
          exact ⟨hc.2, List.isEmpty_iff.mp hc.1⟩
      · cases hstep
    · cases hstep
  | waitReturn =>
    obtain ⟨ho, he, hu, hpo, hpe⟩ := hinv
    simp only [Drain.step] at hstep
    split at hstep
    · rename_i hpc
      split at hstep
      · injection hstep with hstep
        subst hstep
        refine ⟨ho, he, ?_, ?_, ?_⟩
        · intro h
          cases h
        · intro _
          exact hpo (by rw [hpc]; decide)
        · intro _
          exact hpe (Or.inl hpc)
      · cases hstep
    · cases hstep

theorem drainInv_run {script0 : List Action} {room : Stream → List UInt8 → Bool}
    (evs : List DrainEv) {d d1 : Drain} (hinv : DrainInv script0 d)
    (hrun : Drain.run room d evs = some d1) : DrainInv script0 d1 := by
  induction evs generalizing d with
  | nil =>
    simp only [Drain.run, Option.some.injEq] at hrun
    exact hrun ▸ hinv
  | cons e es ih =>
    simp only [Drain.run] at hrun
    split at hrun
    · rename_i d2 hd2
      exact ih (drainInv_step hinv hd2) hrun
    · cases hrun

theorem drain_finished_captures {script0 : List Action} {d : Drain}
    (hinv : DrainInv script0 d) (hpc : d.pc = ReaderPc.finished) :
    d.stdout = written Stream.stdout script0 ∧ d.stderr = written Stream.stderr script0 := by
  have hne : d.pc ≠ ReaderPc.readStdout := by rw [hpc]; decide
  obtain ⟨hoo, hout⟩ := hinv.pastStdout hne
  obtain ⟨heo, herr⟩ := hinv.pastStderr (Or.inr hpc)
  have h1 := hinv.outSplit
  have h2 := hinv.errSplit
  rw [hout, hoo] at h1
  rw [herr, heo] at h2
  simp at h1 h2
  exact ⟨h1.symm, h2.symm⟩

/-- While a write to standard output waits for room, the executor can read:
the stream is open, so the executor is still inside `io.ReadAll(stdoutPipe)`,
and the pipe is not empty. -/
theorem drain_stdout_write_not_stuck {script0 : List Action}
    {room : Stream → List UInt8 → Bool} {d : Drain} (hinv : DrainInv script0 d)
    (hempty : ∀ st : Stream, room st [] = true)
    (hopen : d.outOpen = true) (hfull : room Stream.stdout d.outPipe = false) :
    ∃ d1 : Drain, Drain.step room d (DrainEv.read 1) = some d1 := by
  have hpc : d.pc = ReaderPc.readStdout := by
    by_contra hne
    have h := (hinv.pastStdout hne).1
    rw [hopen] at h
    cases h
  cases hq : d.outPipe with
  | nil =>
    rw [hq, hempty] at hfull
    cases hfull
  | cons b bs =>
    exact Option.isSome_iff_exists.mp (by simp [Drain.step, hpc, hq])

theorem stderr_write_stuck (room : Stream → List UInt8 → Bool) (b : UInt8)
    (pipe : List UInt8) (rest : List Action) (hfull : room Stream.stderr pipe = false) :
    Drain.stuck room
      { script := Action.write Stream.stderr b :: rest, childExited := false, outOpen := true,
        errOpen := true, outPipe := [], errPipe := pipe, pc := ReaderPc.readStdout,
        stdout := [], stderr := [] } := by
  intro ev
  cases ev with
  | child => simp [Drain.step, hfull]
  | read n =>
    simp only [Drain.step, List.length_nil]
    rw [if_neg]
    omega
  | eof => simp [Drain.step]
  | waitReturn => simp [Drain.step]

theorem stderr_writes_reach_stuck (room : Stream → List UInt8 → Bool) (cap : Nat)
    (hb : Bounded room cap) (b : UInt8) (tail : List Action) (n : Nat) :
    ∀ pipe : List UInt8, pipe.length ≤ cap → cap < pipe.length + n →
      ∃ (evs : List DrainEv) (d : Drain),
        Drain.run room
            { script := List.replicate n (Action.write Stream.stderr b) ++ tail,
              childExited := false, outOpen := true, errOpen := true, outPipe := [],
              errPipe := pipe, pc := ReaderPc.readStdout, stdout := [], stderr := [] }
            evs = some d
          ∧ Drain.stuck room d ∧ d.pc = ReaderPc.readStdout ∧ d.childExited = false
          ∧ d.outOpen = true ∧ d.stdout = [] ∧ d.stderr = [] := by
  induction n with
  | zero =>
    intro pipe h1 h2
    omega
  | succ n ih =>
    intro pipe h1 h2
    cases hr : room Stream.stderr pipe with
    | false =>
      exact ⟨[], _, rfl, by
        rw [List.replicate_succ, List.cons_append]
        exact stderr_write_stuck room b pipe _ hr, rfl, rfl, rfl, rfl, rfl⟩
    | true =>
      have hlt : pipe.length < cap := by
        by_contra hge
        have h := hb Stream.stderr pipe (Nat.le_of_not_lt hge)
        rw [hr] at h
        cases h
      obtain ⟨evs, d, hrun, hrest⟩ := ih (pipe ++ [b])
        (by simp only [List.length_append, List.length_singleton]; omega)
        (by simp only [List.length_append, List.length_singleton]; omega)
      refine ⟨DrainEv.child :: evs, d, ?_, hrest⟩
      simp only [List.replicate_succ, List.cons_append, Drain.run, Drain.step, hr, if_true]
      exact hrun

/-- Whatever the pipes take, as long as they are bounded: a child that writes
one byte more than a pipe can hold to standard error, and has standard output
open and empty, ends up waiting on a write while the executor is still inside
`io.ReadAll(stdoutPipe)`; neither can move. -/
theorem stderr_overflow_deadlocks (room : Stream → List UInt8 → Bool) (cap : Nat)
    (hb : Bounded room cap) (b : UInt8) (tail : List Action) :
    ∃ (evs : List DrainEv) (d : Drain),
      Drain.run room
          (Drain.init (List.replicate (cap + 1) (Action.write Stream.stderr b) ++ tail))
          evs = some d
        ∧ Drain.stuck room d
        ∧ d.pc = ReaderPc.readStdout
        ∧ d.childExited = false
        ∧ d.stdout = [] ∧ d.stderr = [] := by
  obtain ⟨evs, d, hrun, h1, h2, h3, _, h5, h6⟩ :=
    stderr_writes_reach_stuck room cap hb b tail (cap + 1) [] (by simp) (by simp)
  exact ⟨evs, d, hrun, h1, h2, h3, h5, h6⟩

theorem byteRoom_bounded (cap : Nat) : Bounded (byteRoom cap) cap := by
  intro st pipe h
  simp only [byteRoom, decide_eq_false_iff_not]
  omega

/-- C8 as claimed fails: with pipes of 65536 bytes, a child that writes 65537
bytes to standard error and nothing to standard output before it exits leaves
the executor stuck inside the read of standard output, with nothing captured. -/
theorem sequential_drain_deadlocks :
    ∃ (evs : List DrainEv) (d : Drain),
      Drain.run (byteRoom 65536)
          (Drain.init (List.replicate (65536 + 1) (Action.write Stream.stderr 0) ++
            [Action.exit, Action.close Stream.stdout, Action.close Stream.stderr]))
          evs = some d
        ∧ Drain.stuck (byteRoom 65536) d
        ∧ d.pc = ReaderPc.readStdout
        ∧ d.childExited = false
        ∧ d.stdout = [] ∧ d.stderr = [] :=
  stderr_overflow_deadlocks (byteRoom 65536) 65536 (byteRoom_bounded 65536) 0 _

/-- C8, as the code behaves: `runSSHCommand` reads standard output to its end
of file and only then standard error, one after the other (nothing is taken
from standard error while standard output is read).  In every run of the
executor and the writers, whatever the pipes take: once `cmd.Wait()` has
returned, the captured stdout and stderr are exactly the bytes written to
each stream; a write to standard output that waits for room never blocks the
executor, which can then read, provided an empty pipe takes a byte.  The
executor is not free of deadlock: for bounded pipes, a child that writes one
byte more to standard error than a pipe can hold, with standard output still
open, leaves the executor stuck inside the read of standard output. -/
theorem drain_sequential (room : Stream → List UInt8 → Bool) (script : List Action)
    (evs : List DrainEv) (d : Drain)
    (hrun : Drain.run room (Drain.init script) evs = some d) :
    (d.pc = ReaderPc.finished →
        d.stdout = written Stream.stdout script ∧ d.stderr = written Stream.stderr script)
      ∧ (d.pc = ReaderPc.readStdout → d.stderr = [])
      ∧ ((∀ st : Stream, room st [] = true) → d.outOpen = true →
          room Stream.stdout d.outPipe = false →
          ∃ d1 : Drain, Drain.step room d (DrainEv.read 1) = some d1)
      ∧ (∀ (cap : Nat) (b : UInt8) (tail : List Action), Bounded room cap →
          ∃ (evs2 : List DrainEv) (d2 : Drain),
            Drain.run room
                (Drain.init (List.replicate (cap + 1) (Action.write Stream.stderr b) ++ tail))
                evs2 = some d2
              ∧ Drain.stuck room d2 ∧ d2.pc = ReaderPc.readStdout
              ∧ d2.stdout = [] ∧ d2.stderr = []) := by
  have hinv : DrainInv script d := drainInv_run evs (drainInv_init script) hrun
  refine ⟨drain_finished_captures hinv, hinv.errUnread,
    fun hempty hopen hfull => drain_stdout_write_not_stuck hinv hempty hopen hfull,
    fun cap b tail hb => ?_⟩
  obtain ⟨evs2, d2, h1, h2, h3, _, h5, h6⟩ := stderr_overflow_deadlocks room cap hb b tail
  exact ⟨evs2, d2, h1, h2, h3, h5, h6⟩

/-- The drain theorem on a child that writes bytes 1 and 3 to standard output
and byte 2 to standard error, exits and leaves both streams closed, over pipes
of 4 bytes. -/
theorem drain_sequential_witness :
    Drain.run (byteRoom 4)
        (Drain.init
          [Action.write Stream.stdout 1, Action.write Stream.stderr 2,
           Action.write Stream.stdout 3, Action.exit, Action.close Stream.stdout,
           Action.close Stream.stderr])
        [DrainEv.child, DrainEv.read 1, DrainEv.child, DrainEv.child, DrainEv.child,
         DrainEv.child, DrainEv.read 1, DrainEv.eof, DrainEv.child, DrainEv.read 1,
         DrainEv.eof, DrainEv.waitReturn] =
      some { script := [], childExited := true, outOpen := false, errOpen := false,
             outPipe := [], errPipe := [], pc := ReaderPc.finished,
             stdout := [1, 3], stderr := [2] }
      ∧ ([1, 3] : List UInt8) =
          written Stream.stdout
            [Action.write Stream.stdout 1, Action.write Stream.stderr 2,
             Action.write Stream.stdout 3, Action.exit, Action.close Stream.stdout,
             Action.close Stream.stderr]
      ∧ ([2] : List UInt8) =
          written Stream.stderr
            [Action.write Stream.stdout 1, Action.write Stream.stderr 2,
             Action.write Stream.stdout 3, Action.exit, Action.close Stream.stdout,
             Action.close Stream.stderr] := by
  have hrun : Drain.run (byteRoom 4)
      (Drain.init
        [Action.write Stream.stdout 1, Action.write Stream.stderr 2,
         Action.write Stream.stdout 3, Action.exit, Action.close Stream.stdout,
         Action.close Stream.stderr])
      [DrainEv.child, DrainEv.read 1, DrainEv.child, DrainEv.child, DrainEv.child,
       DrainEv.child, DrainEv.read 1, DrainEv.eof, DrainEv.child, DrainEv.read 1,
       DrainEv.eof, DrainEv.waitReturn] =
      some { script := [], childExited := true, outOpen := false, errOpen := false,
             outPipe := [], errPipe := [], pc := ReaderPc.finished,
             stdout := [1, 3], stderr := [2] } := by decide
  have h := (drain_sequential (byteRoom 4) _ _ _ hrun).1 rfl
  exact ⟨hrun, h.1, h.2⟩

/-! ## The barrier can be reached -/

theorem sum_stepsLeft_set (tasks : List Task) (k : Nat) (t t1 : Task)
    (hk : tasks[k]? = some t) :
    ((tasks.set k t1).map (fun t => t.pc.stepsLeft)).sum + t.pc.stepsLeft =
      (tasks.map (fun t => t.pc.stepsLeft)).sum + t1.pc.stepsLeft := by
  induction tasks generalizing k with
  | nil => simp at hk
  | cons a as ih =>
    cases k with
    | zero =>
      simp only [List.getElem?_cons_zero, Option.some.injEq] at hk
      subst hk
      simp only [List.set_cons_zero, List.map_cons, List.sum_cons]
      omega
    | succ k =>
      simp only [List.getElem?_cons_succ] at hk
      have h := ih k hk
      simp only [List.set_cons_succ, List.map_cons, List.sum_cons]
      omega

theorem runSSHCommand_ok_of_noLaunchError (id : Int) (host : String) (sshArgs : List String)
    (os : Cmd → ProcEnv) (hos : NoLaunchError os) :
    ∃ block, runSSHCommand id host sshArgs os = Except.ok block := by
  obtain ⟨h1, h2, h3⟩ := hos (sshCommand host sshArgs)
  exact ⟨formatOutput id host (os (sshCommand host sshArgs)).waitErr
    (os (sshCommand host sshArgs)).stdout (os (sshCommand host sshArgs)).stderr
    (os (sshCommand host sshArgs)).now, by simp only [runSSHCommand, h1, h2, h3]⟩

theorem exists_unfinished {tasks : List Task} (h : 0 < pendingTasks tasks) :
    ∃ (k : Nat) (t : Task), tasks[k]? = some t ∧ t.pc ≠ TaskPc.finished := by
  obtain ⟨t, ht, hpc⟩ := List.countP_pos_iff.mp h
  obtain ⟨k, hk⟩ := List.mem_iff_getElem?.mp ht
  exact ⟨k, t, hk, by simpa using hpc⟩

theorem not_blocked_set {tasks : List Task} {k : Nat} {t1 : Task}
    (h : ∀ t ∈ tasks, t.pc ≠ TaskPc.blocked) (h1 : t1.pc ≠ TaskPc.blocked) :
    ∀ t ∈ tasks.set k t1, t.pc ≠ TaskPc.blocked := by
  intro t ht
  rcases List.mem_or_eq_of_mem_set ht with hm | he
  · exact h t hm
  · rw [he]
    exact h1

theorem sys_progress {hosts sshArgs : List String} {s : Sys} (hinv : Inv hosts sshArgs s)
    (hex : s.exited = false) (hw : s.waitReturned = false)
    (hnb : ∀ t ∈ s.tasks, t.pc ≠ TaskPc.blocked)
    (os : Cmd → ProcEnv) (hos : NoLaunchError os) :
    ∃ (ev : Ev) (s1 : Sys), step hosts sshArgs s ev = some s1 ∧ s1.exited = false
      ∧ (∀ t ∈ s1.tasks, t.pc ≠ TaskPc.blocked)
      ∧ s1.measure hosts < s.measure hosts := by
  by_cases hp : s.addPending = true
  · -- main stands before the go statement
    have hb := hinv.bound
    simp only [hp, if_true] at hb
    have hlt : s.tasks.length < hosts.length := by omega
    refine ⟨Ev.go,
      { s with
        addPending := false
        tasks := s.tasks ++
          [⟨⟨s.tasks.length, hosts[s.tasks.length], sshArgs⟩, TaskPc.running⟩] },
      ?_, ?_, ?_, ?_⟩
    · simp only [step, hex, hw, hp, Bool.or_self, Bool.not_true, Bool.false_eq_true, if_false,
        List.getElem?_eq_getElem hlt]
    · exact hex
    · intro t ht
      simp only [List.mem_append, List.mem_singleton] at ht
      rcases ht with ht | ht
      · exact hnb t ht
      · rw [ht]
        intro h
        cases h
    · simp only [Sys.measure, hp, hw, List.length_append, List.length_singleton, List.map_append,
        List.map_cons, List.map_nil, List.sum_append, List.sum_cons, List.sum_nil,
        TaskPc.stepsLeft, if_true, Bool.false_eq_true, if_false]
      omega
  · have hp2 : s.addPending = false := by simpa using hp
    by_cases hlt : s.tasks.length < hosts.length
    · refine ⟨Ev.add, { s with addPending := true, counter := s.counter + 1 }, ?_, ?_, ?_, ?_⟩
      · simp only [step, hex, hw, hp2, Bool.or_self, Bool.false_eq_true, if_false, hlt, if_true]
      · exact hex
      · exact hnb
      · simp only [Sys.measure, hp2, hw, Bool.false_eq_true, if_false, if_true]
        omega
    · have hlen : s.tasks.length = hosts.length := by
        have hb := hinv.bound
        omega
      by_cases hpend : 0 < pendingTasks s.tasks
      · obtain ⟨k, t, ht, hpc⟩ := exists_unfinished hpend
        have htm : t ∈ s.tasks := List.mem_iff_getElem?.mpr ⟨k, ht⟩
        cases hpcv : t.pc with
        | finished => exact absurd hpcv hpc
        | blocked => exact absurd hpcv (hnb t htm)
        | running =>
          obtain ⟨block, hb⟩ :=
            runSSHCommand_ok_of_noLaunchError t.launch.id t.launch.host t.launch.sshArgs os hos
          refine ⟨Ev.exec k os,
            { s with
              sink := s.sink ++ [block]
              tasks := s.tasks.set k { t with pc := TaskPc.printed } },
            ?_, ?_, ?_, ?_⟩
          · simp only [step, hex, hw, Bool.or_self, Bool.false_eq_true, if_false, ht, hpcv,
              if_true, hb]
          · exact hex
          · exact not_blocked_set hnb (by simp)
          · have hs := sum_stepsLeft_set s.tasks k t { t with pc := TaskPc.printed } ht
            have e1 : t.pc.stepsLeft = 2 := by rw [hpcv]; rfl
            have e2 : ({ t with pc := TaskPc.printed } : Task).pc.stepsLeft = 1 := rfl
            rw [e1, e2] at hs
            simp only [Sys.measure, List.length_set]
            omega
        | printed =>
          refine ⟨Ev.done k,
            { s with
              counter := s.counter - 1
              tasks := s.tasks.set k { t with pc := TaskPc.finished } },
            ?_, ?_, ?_, ?_⟩
          · simp only [step, hex, hw, Bool.or_self, Bool.false_eq_true, if_false, ht, hpcv,
              if_true]
          · exact hex
          · exact not_blocked_set hnb (by simp)
          · have hs := sum_stepsLeft_set s.tasks k t { t with pc := TaskPc.finished } ht
            have e1 : t.pc.stepsLeft = 1 := by rw [hpcv]; rfl
            have e2 : ({ t with pc := TaskPc.finished } : Task).pc.stepsLeft = 0 := rfl
            rw [e1, e2] at hs
            simp only [Sys.measure, List.length_set]
            omega
      · have hzero : pendingTasks s.tasks = 0 := by omega
        have hc : s.counter = 0 := by
          rw [hinv.counterEq]
          simp [Sys.pending, hzero, hp2]
        refine ⟨Ev.waitReturn, { s with waitReturned := true }, ?_, ?_, ?_, ?_⟩
        · simp only [step, hex, hw, hp2, Bool.or_self, Bool.false_eq_true, if_false, hlen, hc,
            and_self, if_true]
        · exact hex
        · exact hnb
        · simp only [Sys.measure, hw, Bool.false_eq_true, if_false, if_true]
          omega

theorem run_append (hosts sshArgs : List String) (s : Sys) (e : Ev) (es : List Ev) (s1 : Sys)
    (h : step hosts sshArgs s e = some s1) :
    run hosts sshArgs s (e :: es) = run hosts sshArgs s1 es := by
  simp only [run, h]

/-- From a state without a fatal error and without an executor blocked for
ever, a schedule exists that makes `wg.Wait()` return, when every child still
to run starts, is read to the end and exits. -/
theorem sys_can_complete (hosts sshArgs : List String) (os : Cmd → ProcEnv)
    (hos : NoLaunchError os) (n : Nat) :
    ∀ s : Sys, s.measure hosts ≤ n → Inv hosts sshArgs s → s.exited = false →
      (∀ t ∈ s.tasks, t.pc ≠ TaskPc.blocked) →
      ∃ (evs : List Ev) (s1 : Sys), run hosts sshArgs s evs = some s1
        ∧ s1.waitReturned = true := by
  induction n with
  | zero =>
    intro s hm _ _ _
    cases hw : s.waitReturned with
    | true => exact ⟨[], s, rfl, hw⟩
    | false =>
      simp only [Sys.measure, hw, Bool.false_eq_true, if_false] at hm
      omega
  | succ n ih =>
    intro s hm hinv hex hnb
    cases hw : s.waitReturned with
    | true => exact ⟨[], s, rfl, hw⟩
    | false =>
      obtain ⟨ev, s1, hstep, hex1, hnb1, hlt⟩ := sys_progress hinv hex hw hnb os hos
      obtain ⟨evs, s2, hrun, hw2⟩ := ih s1 (by omega) (inv_step hinv hstep) hex1 hnb1
      exact ⟨ev :: evs, s2, by rw [run_append _ _ _ _ _ _ hstep]; exact hrun, hw2⟩

theorem length_filterMap_eq {α β : Type} (f : α → Option β) (l : List α)
    (h : ∀ a ∈ l, ∃ b, f a = some b) : (l.filterMap f).length = l.length := by
  induction l with
  | nil => rfl
  | cons a l ih =>
    obtain ⟨b, hb⟩ := h a (List.mem_cons_self _ _)
    simp only [List.filterMap_cons, hb, List.length_cons]
    rw [ih (fun x hx => h x (List.mem_cons_of_mem _ hx))]

theorem map_eq_map_some_filterMap {α β : Type} (f : α → Option β) (l : List α)
    (h : ∀ a ∈ l, ∃ b, f a = some b) : l.map f = (l.filterMap f).map some := by
  induction l with
  | nil => rfl
  | cons a l ih =>
    obtain ⟨b, hb⟩ := h a (List.mem_cons_self _ _)
    simp only [List.map_cons, List.filterMap_cons, hb]
    rw [ih (fun x hx => h x (List.mem_cons_of_mem _ hx))]

/-- C3: in every run of main and its executors over any host list (schedule
`evs` from the state in which main enters the loop), the `WaitGroup` counter
equals the number of hosts for which `wg.Add(1)` has run and `wg.Done()` has
not; hence once `wg.Wait()` has returned, standard output holds exactly one
formatted block per host: as many texts as hosts; every text is the block
`formatOutput` builds for a task id `k`, the host at position `k` and the
answers of the operating system to that executor, and the id read off the
text is `k`; the ids read off the texts are a rearrangement of `0 .. N-1`,
each occurring once.  The barrier is reachable: from every state reached
without a fatal error and without an executor blocked for ever, some
continuation of the schedule makes `wg.Wait()` return when the children still
to run start, are read to the end and exit. -/
theorem run_counter_and_sink (hosts sshArgs : List String) (evs : List Ev) (s : Sys)
    (hrun : run hosts sshArgs Sys.init evs = some s) :
    s.counter = (s.pending : Int)
      ∧ (s.waitReturned = true →
          s.sink.length = hosts.length
            ∧ (∀ txt ∈ s.sink, ∃ (k : Nat) (host : String) (os : Cmd → ProcEnv),
                k < hosts.length ∧ hosts[k]? = some host
                  ∧ runSSHCommand k host sshArgs os = Except.ok txt
                  ∧ txt = formatOutput k host (os (sshCommand host sshArgs)).waitErr
                      (os (sshCommand host sshArgs)).stdout
                      (os (sshCommand host sshArgs)).stderr
                      (os (sshCommand host sshArgs)).now
                  ∧ blockId txt = some k)
            ∧ s.sink.map blockId = (s.sink.filterMap blockId).map some
            ∧ (s.sink.filterMap blockId).Perm (List.range hosts.length)
            ∧ (s.sink.filterMap blockId).Nodup
            ∧ (∀ k : Nat, k < hosts.length → (s.sink.filterMap blockId).count k = 1))
      ∧ (s.exited = false → (∀ t ∈ s.tasks, t.pc ≠ TaskPc.blocked) →
          ∀ os : Cmd → ProcEnv, NoLaunchError os →
          ∃ (evs2 : List Ev) (s2 : Sys), run hosts sshArgs s evs2 = some s2
            ∧ s2.waitReturned = true) := by
  have hinv : Inv hosts sshArgs s := inv_run evs (inv_init hosts sshArgs) hrun
  refine ⟨hinv.counterEq, fun hw => ?_, fun hex hnb os hos =>
    sys_can_complete hosts sshArgs os hos _ s (Nat.le_refl _) hinv hex hnb⟩
  have hperm : (s.sink.filterMap blockId).Perm (List.range hosts.length) :=
    inv_sink_complete hinv hw
  have hall : ∀ txt ∈ s.sink, ∃ k, blockId txt = some k := by
    intro txt hmem
    obtain ⟨k, _, _, _, _, _, hk⟩ := hinv.formatted txt hmem
    exact ⟨k, hk⟩
  refine ⟨?_, ?_, ?_, hperm, hinv.sinkNodup, ?_⟩
  · rw [← length_filterMap_eq blockId s.sink hall, hperm.length_eq, List.length_range]
  · intro txt hmem
    obtain ⟨k, host, os, hhost, hrun2, _, _⟩ := hinv.formatted txt hmem
    have hlt : k < hosts.length := (List.getElem?_eq_some_iff.mp hhost).1
    have htxt : txt = formatOutput k host (os (sshCommand host sshArgs)).waitErr
        (os (sshCommand host sshArgs)).stdout (os (sshCommand host sshArgs)).stderr
        (os (sshCommand host sshArgs)).now := by
      have h := hrun2
      simp only [runSSHCommand] at h
      split at h
      · cases h
      · split at h
        · cases h
        · split at h
          · cases h
          · simp only [Except.ok.injEq] at h
            exact h.symm
    have hk : blockId txt = some k := by
      rw [htxt]
      exact blockId_formatOutput k host _ _ _ _
    exact ⟨k, host, os, hlt, hhost, hrun2, htxt, hk⟩
  · exact map_eq_map_some_filterMap blockId s.sink hall
  · intro k hk
    rw [hperm.count_eq, List.count_eq_one_of_mem (List.nodup_range _) (List.mem_range.mpr hk)]

/-- The run theorem on two hosts: host `b` finishes first with exit status 1,
host `a` second with status 0, then `wg.Wait()` returns. -/
theorem run_counter_and_sink_witness :
    ∃ s : Sys,
      run ["a", "b"] ["uptime"] Sys.init
          [Ev.add, Ev.go, Ev.add, Ev.go,
           Ev.exec 1 (osExits "" 1 "15:04:00"), Ev.exec 0 (osExits "up" 0 "15:04:01"),
           Ev.done 0, Ev.done 1, Ev.waitReturn] = some s
        ∧ s.waitReturned = true
        ∧ s.sinkIds = [1, 0]
        ∧ s.sink.length = 2
        ∧ s.sinkIds.Perm (List.range 2) := by
  have hsome : (run ["a", "b"] ["uptime"] Sys.init
      [Ev.add, Ev.go, Ev.add, Ev.go,
       Ev.exec 1 (osExits "" 1 "15:04:00"), Ev.exec 0 (osExits "up" 0 "15:04:01"),
       Ev.done 0, Ev.done 1, Ev.waitReturn]).isSome = true := by decide
  obtain ⟨s, hs⟩ := Option.isSome_iff_exists.mp hsome
  have hw : s.waitReturned = true := by
    have h : (run ["a", "b"] ["uptime"] Sys.init
      [Ev.add, Ev.go, Ev.add, Ev.go,
       Ev.exec 1 (osExits "" 1 "15:04:00"), Ev.exec 0 (osExits "up" 0 "15:04:01"),
       Ev.done 0, Ev.done 1, Ev.waitReturn]).map Sys.waitReturned = some true := by decide
    rw [hs] at h
    simpa using h
  have hids : s.sinkIds = [1, 0] := by
    have h : (run ["a", "b"] ["uptime"] Sys.init
      [Ev.add, Ev.go, Ev.add, Ev.go,
       Ev.exec 1 (osExits "" 1 "15:04:00"), Ev.exec 0 (osExits "up" 0 "15:04:01"),
       Ev.done 0, Ev.done 1, Ev.waitReturn]).map Sys.sinkIds = some [1, 0] := by decide
    rw [hs] at h
    simpa using h
  have hthm := (run_counter_and_sink ["a", "b"] ["uptime"] _ s hs).2.1 hw
  exact ⟨s, hs, hw, hids, hthm.1, hthm.2.2.2.1⟩

end GoPssh
